import Mathlib

/-!
Shallow embedding of the EPUB importer pipeline (Cloudflare-worker style
TypeScript) and verification of its specification claims.

Strings are modelled as `List Char`.  JavaScript numbers appearing as loop
counters and slice bounds are modelled as `Int` (all values relevant to the
claims are integral).  Regex-based transformations are modelled as explicit
left-to-right scanners (fuel-indexed structural recursions, with fuel at least
the input length, so that every definition is executable by `decide`/`rfl`).
-/

namespace EpubAI

/-! ### Character classes -/

/-- JavaScript regex `\s` character class (as used by `split(/\s+/)`,
`String.prototype.trim`, and `\s*` occurrences in the source regexes). -/
def isWs (c : Char) : Bool :=
  c == ' ' || c == '\t' || c == '\n' || c == '\r' || c == '\x0b' || c == '\x0c' ||
  c == '\u00a0' || c == '\u1680' ||
  (decide ('\u2000' ≤ c) && decide (c ≤ '\u200a')) ||
  c == '\u2028' || c == '\u2029' || c == '\u202f' || c == '\u205f' ||
  c == '\u3000' || c == '\ufeff'

/-- ASCII fragment of `String.prototype.toLowerCase`, the part exercised by
the importer (paths and patterns compared case-insensitively). -/
def asciiToLower (c : Char) : Char :=
  if 'A' ≤ c ∧ c ≤ 'Z' then Char.ofNat (c.toNat + 32) else c

/-- The character class `[a-z0-9]` of the slugifier. -/
def isLowerAlnum (c : Char) : Bool :=
  (decide ('a' ≤ c) && decide (c ≤ 'z')) || (decide ('0' ≤ c) && decide (c ≤ '9'))

/-- JavaScript regex word character (`\w`), used for the `\b` boundary in
`/<item\b[^>]*>/`. -/
def isWordChar (c : Char) : Bool :=
  (decide ('a' ≤ c) && decide (c ≤ 'z')) || (decide ('A' ≤ c) && decide (c ≤ 'Z')) ||
  (decide ('0' ≤ c) && decide (c ≤ '9')) || c == '_'

/-! ### Generic list utilities -/

/-- One step of splitting a list into maximal runs of characters that do not
satisfy `p` (accumulator: current run, completed runs). -/
def splitStep (p : Char → Bool) (c : Char) :
    List Char × List (List Char) → List Char × List (List Char)
  | (cur, out) => if p c then ([], if cur = [] then out else cur :: out) else (c :: cur, out)

/-- The accumulator pair after folding `splitStep` over `s`. -/
def splitPair (p : Char → Bool) (s : List Char) : List Char × List (List Char) :=
  s.foldr (splitStep p) ([], [])

/-- `splitRuns p s` is the list of maximal runs of `s` of characters failing
`p`.  This is the model of JavaScript `s.split(sep-regex).filter(Boolean)`
(splitting drops empty tokens via the filter). -/
def splitRuns (p : Char → Bool) (s : List Char) : List (List Char) :=
  let r := splitPair p s
  if r.1 = [] then r.2 else r.1 :: r.2

/-- Model of `Array.prototype.join(sep)` for a one-character separator. -/
def joinSep (sep : List Char) : List (List Char) → List Char
  | [] => []
  | [w] => w
  | w :: ws => w ++ sep ++ joinSep sep ws

/-- Drop the longest suffix whose characters satisfy `p` (right-hand analogue
of `dropWhile`). -/
def dropTrail (p : Char → Bool) (l : List Char) : List Char :=
  (l.reverse.dropWhile p).reverse

/-- Model of `String.prototype.trim`. -/
def trimWs (l : List Char) : List Char :=
  dropTrail isWs (l.dropWhile isWs)

/-- Case-insensitive prefix test: `pat` (given in lowercase) matched against
the head of `s` after ASCII lowercasing, as JavaScript `i`-flagged literal
regex fragments do. -/
def ciPre : List Char → List Char → Bool
  | [], _ => true
  | _ :: _, [] => false
  | p :: ps, c :: cs => (asciiToLower c == p) && ciPre ps cs

/-- `ciMismatch pat w` holds when the case-insensitive match of `pat` already
fails inside `w`, so that `ciPre pat (w ++ t)` is false for every `t`. -/
def ciMismatch : List Char → List Char → Bool
  | [], _ => false
  | _ :: _, [] => false
  | p :: ps, c :: cs => (asciiToLower c != p) || ciMismatch ps cs

/-- Case-sensitive (exact) prefix test. -/
def isPreB : List Char → List Char → Bool
  | [], _ => true
  | _ :: _, [] => false
  | p :: ps, c :: cs => (p == c) && isPreB ps cs

/-- Case-sensitive substring test. -/
def hasSubB (pat : List Char) : List Char → Bool
  | [] => isPreB pat []
  | c :: r => isPreB pat (c :: r) || hasSubB pat r

/-- `p` occurs as a prefix of `l`. -/
def ListPre (p l : List Char) : Prop := ∃ t, p ++ t = l

/-- `p` occurs as a contiguous substring of `l`. -/
def ListSub (p l : List Char) : Prop := ∃ u v, l = u ++ p ++ v

/-- ECMAScript `Array.prototype.slice(start, end)` on lists, with the
standard clamping of negative and out-of-range indices. -/
def jsSlice (l : List α) (start stop : Int) : List α :=
  let len : Int := l.length
  let s := if start < 0 then max (len + start) 0 else min start len
  let e := if stop < 0 then max (len + stop) 0 else min stop len
  (l.take e.toNat).drop s.toNat

/-! ### Generic replace scanner

`String.prototype.replace(regex-with-g, rep)` scans left to right: at each
position it tries the pattern; on a match it emits the replacement and resumes
after the matched span (the replacement is not rescanned), otherwise it emits
the current character and advances one position.  A matcher returns
`(replacement, remainder-after-the-match)`.  All source regexes match at least
one character, so fuel `s.length` always suffices. -/

def scanRepl (m : List Char → Option (List Char × List Char)) :
    Nat → List Char → List Char
  | 0, s => s
  | _ + 1, [] => []
  | fuel + 1, c :: rest =>
    match m (c :: rest) with
    | some (rep, rem) => rep ++ scanRepl m fuel rem
    | none => c :: scanRepl m fuel rest

/-! ### `stripHtml` (markup stripper)

Embedding of the source's `stripHtml`, a chain of global regex replaces:
script/style removal, block-closing tags and `<br>` to newline, tag removal,
a fixed set of entity decodes, and whitespace normalisation. -/

/-- Find the earliest case-insensitive occurrence of `pat` and return the
remainder after it (`[\s\S]*?pat` lazy search). -/
def findCC (pat : List Char) : Nat → List Char → Option (List Char)
  | 0, _ => none
  | fuel + 1, s =>
    if ciPre pat s then some (s.drop pat.length)
    else match s with
      | [] => none
      | _ :: r => findCC pat fuel r

/-- Matcher for `/<script[\s\S]*?<\/script>/i` (and the `style` analogue):
the opening literal, then the lazy shortest span up to the closing literal. -/
def elemMatch (openLit closeLit : List Char) (s : List Char) :
    Option (List Char × List Char) :=
  if ciPre openLit s then
    match findCC closeLit (s.length + 1) (s.drop openLit.length) with
    | some rem => some ([' '], rem)
    | none => none
  else none

/-- The ten closing-tag literals of `/<\/(p|div|br|li|h1|h2|h3|h4|h5|h6)>/i`. -/
def closingTagLits : List (List Char) :=
  ["</p>".toList, "</div>".toList, "</br>".toList, "</li>".toList,
   "</h1>".toList, "</h2>".toList, "</h3>".toList, "</h4>".toList,
   "</h5>".toList, "</h6>".toList]

/-- Matcher for the closing-tag regex: any of the literals, case-insensitively,
replaced by a newline. -/
def closingMatch (s : List Char) : Option (List Char × List Char) :=
  match closingTagLits.find? (fun lit => ciPre lit s) with
  | some lit => some (['\n'], s.drop lit.length)
  | none => none

/-- Matcher for `/<br\s*\/?>/i`: `<br`, optional whitespace, optional `/`,
then `>`, replaced by a newline. -/
def brMatch (s : List Char) : Option (List Char × List Char) :=
  if ciPre "<br".toList s then
    match (s.drop 3).dropWhile isWs with
    | '/' :: '>' :: r => some (['\n'], r)
    | '>' :: r => some (['\n'], r)
    | _ => none
  else none

/-- Matcher for `/<[^>]+>/`: `<`, at least one non-`>` character, then `>`,
replaced by a space. -/
def tagMatch (s : List Char) : Option (List Char × List Char) :=
  match s with
  | '<' :: r =>
    let body := r.takeWhile (fun c => c != '>')
    if body = [] then none
    else match r.drop body.length with
      | '>' :: rem => some ([' '], rem)
      | _ => none
  | _ => none

/-- Matcher for a literal (case-sensitive) pattern replaced by `rep`, as in
the entity decodes `/&nbsp;/g` etc. -/
def litMatch (pat rep : List Char) (s : List Char) : Option (List Char × List Char) :=
  if isPreB pat s then some (rep, s.drop pat.length) else none

/-- Matcher for `/\s+\n/`: at least one whitespace character followed by a
newline, replaced by a newline.  The greedy `\s+` backtracks to the last
newline inside the maximal whitespace run that has at least one whitespace
character before it. -/
def wsNlMatch (s : List Char) : Option (List Char × List Char) :=
  let run := s.takeWhile isWs
  match (run.reverse.findIdx? (fun c => c == '\n')) with
  | some rk =>
    let j := run.length - 1 - rk
    if 1 ≤ j then some (['\n'], s.drop (j + 1)) else none
  | none => none

/-- Matcher for `/\n\s+/`: a newline followed by at least one whitespace
character, replaced by a newline. -/
def nlWsMatch (s : List Char) : Option (List Char × List Char) :=
  match s with
  | '\n' :: r =>
    let run := r.takeWhile isWs
    if run = [] then none else some (['\n'], r.drop run.length)
  | _ => none

/-- Matcher for `/[ \t]+/`: a run of spaces and tabs, replaced by one space. -/
def blankMatch (s : List Char) : Option (List Char × List Char) :=
  let run := s.takeWhile (fun c => c == ' ' || c == '\t')
  if run = [] then none else some ([' '], s.drop run.length)

/-- Matcher for `/\n{3,}/`: three or more newlines, replaced by two. -/
def nl3Match (s : List Char) : Option (List Char × List Char) :=
  let run := s.takeWhile (fun c => c == '\n')
  if 3 ≤ run.length then some (['\n', '\n'], s.drop run.length) else none

/-- One global-replace pass (fuel = input length, which always suffices since
every matcher consumes at least one character). -/
def pass (m : List Char → Option (List Char × List Char)) (s : List Char) : List Char :=
  scanRepl m s.length s

/-- The source's `stripHtml`: script/style removal, closing block tags and
`<br>` to newlines, remaining tag removal, the six entity decodes, and
whitespace normalisation, in source order. -/
def stripHtml (html : List Char) : List Char :=
  let t1 := pass (elemMatch "<script".toList "</script>".toList) html
  let t2 := pass (elemMatch "<style".toList "</style>".toList) t1
  let t3 := pass closingMatch t2
  let t4 := pass brMatch t3
  let t5 := pass tagMatch t4
  let t6 := pass (litMatch "&nbsp;".toList [' ']) t5
  let t7 := pass (litMatch "&amp;".toList ['&']) t6
  let t8 := pass (litMatch "&lt;".toList ['<']) t7
  let t9 := pass (litMatch "&gt;".toList ['>']) t8
  let t10 := pass (litMatch "&quot;".toList ['"']) t9
  let t11 := pass (litMatch "&#39;".toList ['\'']) t10
  let t12 := pass wsNlMatch t11
  let t13 := pass nlWsMatch t12
  let t14 := pass blankMatch t13
  let t15 := pass nl3Match t14
  trimWs t15

/-! ### `slugify` -/

/-- Matcher for `/[^a-z0-9]+/`: a run of characters outside `[a-z0-9]`,
replaced by one underscore. -/
def nonAlnumMatch (s : List Char) : Option (List Char × List Char) :=
  let run := s.takeWhile (fun c => !isLowerAlnum c)
  if run = [] then none else some (['_'], s.drop run.length)

/-- The source's `slugify`: lowercase, trim, delete straight quotes
(`/['"]/g`), collapse runs outside `[a-z0-9]` to `_`, strip leading/trailing
underscores (`/^_+|_+$/g`), truncate to 80 characters, default `"book"`. -/
def slugify (s : List Char) : List Char :=
  let t1 := s.map asciiToLower
  let t2 := trimWs t1
  let t3 := t2.filter (fun c => !(c == '\'' || c == '"'))
  let t4 := pass nonAlnumMatch t3
  let t5 := dropTrail (fun c => c == '_') (t4.dropWhile (fun c => c == '_'))
  let t6 := t5.take 80
  if t6 = [] then "book".toList else t6

/-- Modelled from the spec: the slugification rule as worded in the spec
(`lowercase, trim, strip straight/curly quotes, collapse any run of
non-[a-z0-9] characters to a single underscore, trim leading/trailing
underscores, truncate to 80 characters, default to the literal book`).
Collapsing runs and then trimming boundary underscores is rendered as
interleaving the maximal `[a-z0-9]` runs with single underscores.  Straight
and curly quotes are stripped. -/
def slugifySpec (s : List Char) : List Char :=
  let t1 := s.map asciiToLower
  let t2 := trimWs t1
  let t3 := t2.filter (fun c =>
    !(c == '\'' || c == '"' || c == '‘' || c == '’' ||
      c == '“' || c == '”'))
  let t4 := joinSep ['_'] (splitRuns (fun c => !isLowerAlnum c) t3)
  let t5 := t4.take 80
  if t5 = [] then "book".toList else t5

/-- The spec's slugification rule amended to strip only straight quotes
(matching the source's `/['"]/g`), otherwise word for word as `slugifySpec`. -/
def slugifySpecStraight (s : List Char) : List Char :=
  let t1 := s.map asciiToLower
  let t2 := trimWs t1
  let t3 := t2.filter (fun c => !(c == '\'' || c == '"'))
  let t4 := joinSep ['_'] (splitRuns (fun c => !isLowerAlnum c) t3)
  let t5 := t4.take 80
  if t5 = [] then "book".toList else t5

/-! ### `chunkWords` (fragmenter) -/

/-- `text.split(/\s+/).filter(Boolean)`: the whitespace-delimited word
sequence of a text. -/
def wordsOf (text : List Char) : List (List Char) :=
  splitRuns isWs text

/-- The number of whitespace-delimited words of a string (the word count the
spec's fragment-size statements are about). -/
def wordCount (s : List Char) : Nat :=
  (wordsOf s).length

/-- The loop of `chunkWords` (`for (let i = 0; i < words.length; i += targetWords)
chunks.push(words.slice(i, i + targetWords).join(" "))`), fuel-indexed:
`none` means the fuel was exhausted before the loop condition failed.  The
loop counter and stride are `Int`, as in JavaScript (where `targetWords` is
not validated and may be zero or negative). -/
def chunkLoop (targetWords : Int) (ws : List (List Char)) :
    Nat → Int → List (List Char) → Option (List (List Char))
  | 0, _, _ => none
  | fuel + 1, i, acc =>
    if i < (ws.length : Int) then
      chunkLoop targetWords ws fuel (i + targetWords)
        (acc ++ [joinSep [' '] (jsSlice ws i (i + targetWords))])
    else some acc

/-- The source's `chunkWords`.  For `targetWords ≥ 1` the loop performs at
most `words.length` iterations, so fuel `words.length + 1` suffices and the
`getD` default is never taken (`chunkLoop_complete` below); for
`targetWords ≤ 0` on a nonempty word list the source loop does not terminate
(claim C10), and this total model returns `[]`. -/
def chunkWords (text : List Char) (targetWords : Int) : List (List Char) :=
  (chunkLoop targetWords (wordsOf text) ((wordsOf text).length + 1) 0 []).getD []

/-- `chunkWords` terminates (in the sense of the source loop) iff some fuel
bound suffices. -/
def ChunkWordsTerminates (text : List Char) (targetWords : Int) : Prop :=
  ∃ fuel, (chunkLoop targetWords (wordsOf text) fuel 0 []).isSome = true

/-- Canonical windowing with window size `k + 1` (successive `take (k+1)`
slices), used to state what the `chunkWords` loop computes for positive
`targetWords`. -/
def chunksOfSucc (k : Nat) : List α → List (List α)
  | [] => []
  | a :: l => ((a :: l).take (k + 1)) :: chunksOfSucc k (l.drop k)
termination_by l => l.length
decreasing_by simp only [List.length_drop, List.length_cons]; omega

/-- The request handler's operative slice
(`allChunks.slice(startFrom - 1, startFrom - 1 + maxFragments)`). -/
def operativeChunks (allChunks : List α) (startFrom maxFragments : Int) : List α :=
  jsSlice allChunks (startFrom - 1) (startFrom - 1 + maxFragments)

/-! ### Path normalisation and the package parser -/

/-- `href.split("#")[0]`: strip a fragment identifier. -/
def stripFrag (href : List Char) : List Char :=
  href.takeWhile (fun c => c != '#')

/-- The `.`/`..` resolution loop of `normalizePath` (`out` is the pushdown
stack, held in reverse; `..` pops, popping an empty stack is a no-op). -/
def normSegs : List (List Char) → List (List Char) → List (List Char)
  | [], out => out.reverse
  | p :: rest, out =>
    if p = ['.'] then normSegs rest out
    else if p = ['.', '.'] then normSegs rest out.tail
    else normSegs rest (p :: out)

/-- The source's `normalizePath(baseDir, href)`: strip the fragment, join,
split on `/` dropping empty segments, resolve `.`/`..`, rejoin. -/
def normalizePath (baseDir href : List Char) : List Char :=
  joinSep ['/'] (normSegs (splitRuns (fun c => c == '/') (baseDir ++ stripFrag href)) [])

/-- An archive: the unzipped EPUB as an ordered association list from path to
text content (JavaScript object keys enumerate in insertion order). -/
abbrev Archive := List (List Char × List Char)

/-- Structural errors of the resolver (`container.xml not found`, `OPF path
not found in container.xml`). -/
inductive EpubErr where
  | containerNotFound
  | opfPathNotFound
deriving DecidableEq, Repr

/-- The text-document extension test `/\.(xhtml|html|htm)$/i`. -/
def extTeB (p : List Char) : Bool :=
  let q := p.map asciiToLower
  ".xhtml".toList.isSuffixOf q || ".html".toList.isSuffixOf q || ".htm".toList.isSuffixOf q

/-- The container test `p.toLowerCase().endsWith("meta-inf/container.xml")`. -/
def containerKeyB (p : List Char) : Bool :=
  "meta-inf/container.xml".toList.isSuffixOf (p.map asciiToLower)

/-- Attempted match of `/full-path="([^"]+)"/i` at the current position:
the literal (case-insensitively), then one or more non-quote characters,
then the closing double quote. -/
def fullPathAt (s : List Char) : Option (List Char) :=
  if ciPre "full-path=\"".toList s then
    let rest := s.drop 11
    let v := rest.takeWhile (fun c => c != '"')
    if v = [] then none
    else match rest.drop v.length with
      | '"' :: _ => some v
      | _ => none
  else none

/-- Left-to-right scan for the first `full-path="…"` match. -/
def findFullPath : Nat → List Char → Option (List Char)
  | 0, _ => none
  | fuel + 1, s =>
    match fullPathAt s with
    | some v => some v
    | none => match s with
      | [] => none
      | _ :: r => findFullPath fuel r

/-- The source's `findOpfPath`: the first archive key that ends
(case-insensitively) with `meta-inf/container.xml`, then the first
`full-path="…"` match in its content. -/
def findOpfPath (files : Archive) : Except EpubErr (List Char) :=
  match files.find? (fun e => containerKeyB e.1) with
  | none => .error .containerNotFound
  | some e =>
    match findFullPath (e.2.length + 1) e.2 with
    | none => .error .opfPathNotFound
    | some v => .ok v

/-- Attempted match of `` `${name}\s*=\s*["']([^"']+)["']` `` (flag `i`) at
the current position (`name` given in lowercase). -/
def attrAt (name : List Char) (s : List Char) : Option (List Char) :=
  if ciPre name s then
    match (s.drop name.length).dropWhile isWs with
    | '=' :: r3 =>
      match r3.dropWhile isWs with
      | q :: r5 =>
        if q == '"' || q == '\'' then
          let v := r5.takeWhile (fun c => !(c == '"' || c == '\''))
          if v = [] then none
          else match r5.drop v.length with
            | q2 :: _ => if q2 == '"' || q2 == '\'' then some v else none
            | [] => none
        else none
      | [] => none
    | _ => none
  else none

/-- Left-to-right scan for the first attribute match (`tag.match(re)` with the
first capture group). -/
def getAttrScan (name : List Char) : Nat → List Char → Option (List Char)
  | 0, _ => none
  | fuel + 1, s =>
    match attrAt name s with
    | some v => some v
    | none => match s with
      | [] => none
      | _ :: r => getAttrScan name fuel r

/-- The source's `getAttr(tag, name)`. -/
def getAttr (tag name : List Char) : Option (List Char) :=
  getAttrScan name (tag.length + 1) tag

/-- Attempted match of `` `<item\b[^>]*>` `` (or `itemref`) at the current
position, returning the matched tag text (original casing) and the remainder. -/
def tagLitAt (lit : List Char) (s : List Char) : Option (List Char × List Char) :=
  if ciPre lit s then
    let r := s.drop lit.length
    let boundaryOk := match r.head? with
      | some c => !isWordChar c
      | none => true
    if boundaryOk then
      let body := r.takeWhile (fun c => c != '>')
      match r.drop body.length with
      | '>' :: rem => some (s.take (lit.length + body.length + 1), rem)
      | _ => none
    else none
  else none

/-- `opfXml.match(/<item\b[^>]*>/gi)` (resp. `itemref`): all matches in
document order. -/
def collectTags (lit : List Char) : Nat → List Char → List (List Char)
  | 0, _ => []
  | fuel + 1, s =>
    match tagLitAt lit s with
    | some (m, rem) => m :: collectTags lit fuel rem
    | none => match s with
      | [] => []
      | _ :: r => collectTags lit fuel r

/-- Manifest construction: `manifestMap[id] = href` for each item tag with
both attributes; later assignments shadow earlier ones, so entries are
prepended and `List.lookup` retrieves the last write. -/
def buildManifest : List (List Char) → List (List Char × List Char) →
    List (List Char × List Char)
  | [], acc => acc
  | tag :: rest, acc =>
    match getAttr tag "id".toList, getAttr tag "href".toList with
    | some i, some h => buildManifest rest ((i, h) :: acc)
    | _, _ => buildManifest rest acc

/-- `opfPath.includes("/") ? opfPath.substring(0, opfPath.lastIndexOf("/") + 1) : ""`. -/
def baseDirOf (opfPath : List Char) : List Char :=
  if '/' ∈ opfPath then (dropTrail (fun c => c != '/') opfPath) else []

/-- The spine loop of `extractSpineHtmlPaths`: resolve each `idref` through
the manifest, normalise against the base directory, and keep only paths with
a text-document extension that exist in the archive; failures at any step
skip the entry. -/
def spineLoop (manifest : List (List Char × List Char)) (baseDir : List Char)
    (files : Archive) : List (List Char) → List (List Char)
  | [] => []
  | tag :: rest =>
    match getAttr tag "idref".toList with
    | none => spineLoop manifest baseDir files rest
    | some idref =>
      match manifest.lookup idref with
      | none => spineLoop manifest baseDir files rest
      | some href =>
        let fullPath := normalizePath baseDir href
        if extTeB fullPath then
          if (files.lookup fullPath).isSome then
            fullPath :: spineLoop manifest baseDir files rest
          else spineLoop manifest baseDir files rest
        else spineLoop manifest baseDir files rest

/-- Spine resolution of `extractSpineHtmlPaths` (before the fallback branch):
manifest and spine tags scanned from the OPF document, then the spine loop. -/
def spineHtmlPaths (files : Archive) (opfPath : List Char) : List (List Char) :=
  let opfXml := ((files.lookup opfPath).getD [])
  let manifest := buildManifest (collectTags "<item".toList (opfXml.length + 1) opfXml) []
  let itemrefs := collectTags "<itemref".toList (opfXml.length + 1) opfXml
  spineLoop manifest (baseDirOf opfPath) files itemrefs

/-! ### Fragment orchestrator and request parameters -/

/-- The orchestrator loop of the request handler (`for` over the operative
chunks: call the external generator, push `{index: startFrom + i, lesson}`,
or record `{fragment: startFrom + i, error}` and break).  The external
generator is an oracle indexed by the operative position `i` (the loop
variable); the third component is ghost instrumentation recording the
sequence of operative positions at which the generator was invoked, so that
"attempted once, in order, nothing after a failure" is expressible. -/
def orchestrateGo (gen : Nat → Except E L) (startFrom : Nat) :
    Nat → List α → List (Nat × L) × Option (Nat × E) × List Nat
  | _, [] => ([], none, [])
  | i, _ :: rest =>
    match gen i with
    | .ok lesson =>
      match orchestrateGo gen startFrom (i + 1) rest with
      | (ls, err, att) => ((startFrom + i, lesson) :: ls, err, i :: att)
    | .error e => ([], some (startFrom + i, e), [i])

/-- The orchestrator on the operative chunk list, starting at loop index 0. -/
def orchestrate (gen : Nat → Except E L) (startFrom : Nat) (chunks : List α) :
    List (Nat × L) × Option (Nat × E) × List Nat :=
  orchestrateGo gen startFrom 0 chunks

/-- The request parameters derived by the handler (`Math.max(1, Number(… || 3))`,
`Number(… || 1200)`, `Math.max(1, Number(… || 1))`); `none` models an absent
or empty form field (caught by `||`), `some v` a client-supplied numeric. -/
structure ReqParams where
  maxFragments : Int
  startFrom : Int
  targetWords : Int
deriving Repr, DecidableEq

/-- `deriveParams mf tw sf` models lines 182–184 of the handler. -/
def deriveParams (mf tw sf : Option Int) : ReqParams :=
  { maxFragments := max 1 (mf.getD 3)
    targetWords := tw.getD 1200
    startFrom := max 1 (sf.getD 1) }

/-! ### Verification-side definitions -/

/-- Invariant behind tag-freedom: every `<` in the string is either
immediately followed by `>` or has no `>` anywhere after it.  It implies that
no substring is a raw tag `<` + nonempty `<>`-free body + `>`. -/
def NoLoneLt : List Char → Prop
  | [] => True
  | c :: r => (c = '<' → (r.head? = some '>' ∨ '>' ∉ r)) ∧ NoLoneLt r

/-- A matcher consumes at least one character, leaves a suffix, and replaces
it with one of the single characters space, newline, or ampersand (the shape
of every replacement performed before the entity decodes). -/
def MShape (m : List Char → Option (List Char × List Char)) : Prop :=
  ∀ t rep rem, m t = some (rep, rem) →
    (rep = [' '] ∨ rep = ['\n'] ∨ rep = ['&']) ∧ ∃ k, 1 ≤ k ∧ rem = t.drop k

/-- A matcher that neither consumes nor emits an angle bracket (the shape of
every replacement performed after tag stripping, apart from the `&lt;`/`&gt;`
decodes). -/
def MSafe (m : List Char → Option (List Char × List Char)) : Prop :=
  ∀ t rep rem, m t = some (rep, rem) →
    '<' ∉ rep ∧ '>' ∉ rep ∧
    ∃ k, 1 ≤ k ∧ rem = t.drop k ∧ '<' ∉ t.take k ∧ '>' ∉ t.take k

/-- Verification helper: `['_']` exactly when `b` holds. -/
def undIf (b : Bool) : List Char := if b then ['_'] else []

/-- Verification helper: whether the string starts with a non-`[a-z0-9]`
character. -/
def headNonAlnum : List Char → Bool
  | [] => false
  | c :: _ => !isLowerAlnum c

/-- The fifteen replacement stages of `stripHtml`, named for the
verification of the markup stripper (stage `k` is the value of the source's
intermediate `t<k>`). -/
def st1 (html : List Char) : List Char :=
  pass (elemMatch "<script".toList "</script>".toList) html

def st2 (html : List Char) : List Char :=
  pass (elemMatch "<style".toList "</style>".toList) (st1 html)

def st3 (html : List Char) : List Char := pass closingMatch (st2 html)

def st4 (html : List Char) : List Char := pass brMatch (st3 html)

def st5 (html : List Char) : List Char := pass tagMatch (st4 html)

def st6 (html : List Char) : List Char := pass (litMatch "&nbsp;".toList [' ']) (st5 html)

def st7 (html : List Char) : List Char := pass (litMatch "&amp;".toList ['&']) (st6 html)

def st8 (html : List Char) : List Char := pass (litMatch "&lt;".toList ['<']) (st7 html)

def st9 (html : List Char) : List Char := pass (litMatch "&gt;".toList ['>']) (st8 html)

def st10 (html : List Char) : List Char := pass (litMatch "&quot;".toList ['"']) (st9 html)

def st11 (html : List Char) : List Char := pass (litMatch "&#39;".toList ['\'']) (st10 html)

def st12 (html : List Char) : List Char := pass wsNlMatch (st11 html)

def st13 (html : List Char) : List Char := pass nlWsMatch (st12 html)

def st14 (html : List Char) : List Char := pass blankMatch (st13 html)

def st15 (html : List Char) : List Char := pass nl3Match (st14 html)

/-! ## Verification -/

/-! ### Splitting into runs -/

theorem splitPair_cons (p : Char → Bool) (c : Char) (s : List Char) :
    splitPair p (c :: s) = splitStep p c (splitPair p s) := rfl

theorem splitPair_word (p : Char → Bool) (w s : List Char)
    (hw : ∀ c ∈ w, p c = false) :
    splitPair p (w ++ s) = (w ++ (splitPair p s).1, (splitPair p s).2) := by
  induction w with
  | nil => simp
  | cons c w ih =>
    have hc : p c = false := hw c (by simp)
    have hw2 : ∀ d ∈ w, p d = false := fun d hd => hw d (by simp [hd])
    simp only [List.cons_append, splitPair_cons, ih hw2, splitStep, hc,
      Bool.false_eq_true, if_false]

theorem splitRuns_sep (p : Char → Bool) (c : Char) (s : List Char)
    (hc : p c = true) : splitRuns p (c :: s) = splitRuns p s := by
  simp only [splitRuns, splitPair_cons, splitStep, hc, if_true]

theorem splitPair_sep (p : Char → Bool) (c : Char) (s : List Char)
    (hc : p c = true) : splitPair p (c :: s) = ([], splitRuns p s) := by
  simp only [splitPair_cons, splitStep, hc, if_true, splitRuns]

theorem splitRuns_word_append (p : Char → Bool) (w s : List Char) (d : Char)
    (hne : w ≠ []) (hw : ∀ c ∈ w, p c = false) (hd : p d = true) :
    splitRuns p (w ++ d :: s) = w :: splitRuns p s := by
  have h1 := splitPair_word p w (d :: s) hw
  rw [splitPair_sep p d s hd] at h1
  simp only [splitRuns, h1, List.append_nil, hne, if_false]

theorem splitRuns_word (p : Char → Bool) (w : List Char)
    (hne : w ≠ []) (hw : ∀ c ∈ w, p c = false) :
    splitRuns p w = [w] := by
  have h1 := splitPair_word p w [] hw
  simp only [show splitPair p ([] : List Char) = ([], []) from rfl, List.append_nil] at h1
  simp only [splitRuns, h1, hne, if_false]

theorem splitRuns_nil (p : Char → Bool) : splitRuns p [] = [] := rfl

theorem joinSep_roundtrip (p : Char → Bool) (sep : Char) (hsep : p sep = true)
    (ws : List (List Char))
    (h : ∀ w ∈ ws, w ≠ [] ∧ ∀ c ∈ w, p c = false) :
    splitRuns p (joinSep [sep] ws) = ws := by
  induction ws with
  | nil => rfl
  | cons w ws ih =>
    match ws with
    | [] =>
      simp only [joinSep]
      exact splitRuns_word p w (h w (by simp)).1 (h w (by simp)).2
    | w' :: ws' =>
      have hjoin : joinSep [sep] (w :: w' :: ws') = w ++ sep :: joinSep [sep] (w' :: ws') := by
        simp [joinSep]
      rw [hjoin, splitRuns_word_append p w _ sep (h w (by simp)).1 (h w (by simp)).2 hsep,
        ih (fun u hu => h u (by simp [hu]))]

theorem splitPair_good (p : Char → Bool) (s : List Char) :
    (∀ c ∈ (splitPair p s).1, p c = false) ∧
    (∀ w ∈ (splitPair p s).2, w ≠ [] ∧ ∀ c ∈ w, p c = false) := by
  induction s with
  | nil => simp [splitPair]
  | cons c s ih =>
    rw [splitPair_cons]
    by_cases hc : p c = true
    · simp only [splitStep, hc, if_true]
      refine ⟨by simp, ?_⟩
      by_cases hcur : (splitPair p s).1 = []
      · simpa [hcur] using ih.2
      · intro w hw
        rw [if_neg hcur] at hw
        rcases List.mem_cons.mp hw with rfl | hw
        · exact ⟨hcur, ih.1⟩
        · exact ih.2 w hw
    · have hc' : p c = false := by revert hc; cases p c <;> simp
      simp only [splitStep, hc', Bool.false_eq_true, if_false]
      refine ⟨?_, ih.2⟩
      intro d hd
      rcases List.mem_cons.mp hd with rfl | hd
      · exact hc'
      · exact ih.1 d hd

theorem splitRuns_good (p : Char → Bool) (s : List Char) :
    ∀ w ∈ splitRuns p s, w ≠ [] ∧ ∀ c ∈ w, p c = false := by
  intro w hw
  have h := splitPair_good p s
  by_cases hcur : (splitPair p s).1 = []
  · simp only [splitRuns, if_pos hcur] at hw
    exact h.2 w hw
  · simp only [splitRuns, if_neg hcur] at hw
    rcases List.mem_cons.mp hw with rfl | hw
    · exact ⟨hcur, h.1⟩
    · exact h.2 w hw

/-! ### `jsSlice` and chunking -/

theorem jsSlice_nonneg (l : List α) (i j : Int) (hi : 0 ≤ i) (hij : i ≤ j) :
    jsSlice l i j = (l.drop i.toNat).take (j - i).toNat := by
  have hj : 0 ≤ j := le_trans hi hij
  simp only [jsSlice, if_neg (not_lt.mpr hi), if_neg (not_lt.mpr hj)]
  rcases le_or_lt i (l.length : Int) with hil | hil
  · rcases le_or_lt j (l.length : Int) with hjl | hjl
    · rw [min_eq_left hjl, min_eq_left hil, List.drop_take]
      congr 1
      omega
    · have h1 : (min j (l.length : Int)).toNat = l.length := by omega
      have h2 : (min i (l.length : Int)).toNat = i.toNat := by omega
      rw [h1, h2, List.take_length, List.take_of_length_le]
      have : (l.drop i.toNat).length = l.length - i.toNat := List.length_drop _ _
      omega
  · have h1 : (List.take (min j (l.length : Int)).toNat l).length ≤
        (min i (l.length : Int)).toNat := by
      rw [List.length_take]
      omega
    rw [List.drop_of_length_le h1,
      List.drop_of_length_le (by omega : l.length ≤ i.toNat), List.take_nil]

theorem chunksOfSucc_nil (k : Nat) : chunksOfSucc k ([] : List α) = [] := by
  simp [chunksOfSucc]

theorem chunksOfSucc_cons (k : Nat) (a : α) (t : List α) :
    chunksOfSucc k (a :: t) =
      ((a :: t).take (k + 1)) :: chunksOfSucc k ((a :: t).drop (k + 1)) := by
  rw [chunksOfSucc, List.drop_succ_cons]

theorem chunksOfSucc_of_ne_nil (k : Nat) (l : List α) (h : l ≠ []) :
    chunksOfSucc k l = (l.take (k + 1)) :: chunksOfSucc k (l.drop (k + 1)) := by
  cases l with
  | nil => exact absurd rfl h
  | cons a t => exact chunksOfSucc_cons k a t

theorem chunkLoop_spec (tw : Int) (htw : 1 ≤ tw) (ws : List (List Char)) :
    ∀ (fuel : Nat) (i : Int) (acc : List (List Char)), 0 ≤ i →
      (ws.length : Int) - i < fuel → 1 ≤ fuel →
      chunkLoop tw ws fuel i acc =
        some (acc ++ (chunksOfSucc (tw.toNat - 1) (ws.drop i.toNat)).map (joinSep [' '])) := by
  intro fuel
  induction fuel with
  | zero => intro i acc _ _ h1; omega
  | succ fuel ih =>
    intro i acc hi hflt _
    by_cases hlt : i < (ws.length : Int)
    · have hdrop : ws.drop i.toNat ≠ [] := by
        intro h
        have := List.length_drop i.toNat ws
        rw [h] at this
        simp at this
        omega
      rw [chunkLoop, if_pos hlt,
        ih (i + tw) _ (by omega) (by omega) (by omega)]
      rw [jsSlice_nonneg ws i (i + tw) hi (by omega)]
      have htn : (i + tw - i).toNat = tw.toNat := by omega
      rw [htn]
      rw [chunksOfSucc_of_ne_nil (tw.toNat - 1) (ws.drop i.toNat) hdrop]
      have hk1 : tw.toNat - 1 + 1 = tw.toNat := by omega
      rw [hk1, List.drop_drop]
      have hit : i.toNat + tw.toNat = (i + tw).toNat := by omega
      rw [hit]
      simp
    · rw [chunkLoop, if_neg hlt]
      rw [List.drop_of_length_le (by omega : ws.length ≤ i.toNat), chunksOfSucc_nil]
      simp

theorem chunkWords_eq (text : List Char) (tw : Int) (htw : 1 ≤ tw) :
    chunkWords text tw =
      (chunksOfSucc (tw.toNat - 1) (wordsOf text)).map (joinSep [' ']) := by
  unfold chunkWords
  rw [chunkLoop_spec tw htw (wordsOf text) _ 0 [] le_rfl (by omega) (by omega)]
  simp

theorem chunkLoop_stuck (tw : Int) (htw : tw ≤ 0) (ws : List (List Char))
    (hws : ws ≠ []) :
    ∀ (fuel : Nat) (i : Int) (acc : List (List Char)), i ≤ 0 →
      chunkLoop tw ws fuel i acc = none := by
  intro fuel
  induction fuel with
  | zero => intro i acc _; rfl
  | succ fuel ih =>
    intro i acc hi
    have hlen : 1 ≤ ws.length := by
      cases ws with
      | nil => exact absurd rfl hws
      | cons a t => simp
    rw [chunkLoop, if_pos (by omega)]
    exact ih (i + tw) _ (by omega)

theorem chunksOfSucc_mem_ne_nil_aux (k : Nat) :
    ∀ (n : Nat) (l : List α), l.length ≤ n → ∀ w ∈ chunksOfSucc k l, w ≠ [] := by
  intro n
  induction n with
  | zero =>
    intro l hl w hw
    have hl0 : l = [] := List.length_eq_zero.mp (by omega)
    subst hl0
    rw [chunksOfSucc_nil] at hw
    simp at hw
  | succ n ih =>
    intro l hl w hw
    rcases l with _ | ⟨a, t⟩
    · rw [chunksOfSucc_nil] at hw
      simp at hw
    · rw [chunksOfSucc_cons] at hw
      rcases List.mem_cons.mp hw with rfl | hw
      · simp
      · refine ih ((a :: t).drop (k + 1)) ?_ w hw
        simp only [List.length_drop, List.length_cons] at *
        omega

theorem chunksOfSucc_mem_ne_nil (k : Nat) (l : List α) :
    ∀ w ∈ chunksOfSucc k l, w ≠ [] :=
  chunksOfSucc_mem_ne_nil_aux k l.length l le_rfl

theorem chunksOfSucc_mem_subset_aux (k : Nat) :
    ∀ (n : Nat) (l : List α), l.length ≤ n →
      ∀ w ∈ chunksOfSucc k l, ∀ x ∈ w, x ∈ l := by
  intro n
  induction n with
  | zero =>
    intro l hl w hw
    have hl0 : l = [] := List.length_eq_zero.mp (by omega)
    subst hl0
    rw [chunksOfSucc_nil] at hw
    simp at hw
  | succ n ih =>
    intro l hl w hw x hx
    rcases l with _ | ⟨a, t⟩
    · rw [chunksOfSucc_nil] at hw
      simp at hw
    · rw [chunksOfSucc_cons] at hw
      rcases List.mem_cons.mp hw with rfl | hw
      · exact List.mem_of_mem_take hx
      · refine List.mem_of_mem_drop (ih ((a :: t).drop (k + 1)) ?_ w hw x hx)
        simp only [List.length_drop, List.length_cons] at *
        omega

theorem chunksOfSucc_mem_subset (k : Nat) (l : List α) :
    ∀ w ∈ chunksOfSucc k l, ∀ x ∈ w, x ∈ l :=
  chunksOfSucc_mem_subset_aux k l.length l le_rfl

theorem chunksOfSucc_singleton (k : Nat) (l : List α) (hne : l ≠ [])
    (hlen : l.length ≤ k + 1) : chunksOfSucc k l = [l] := by
  rw [chunksOfSucc_of_ne_nil k l hne, List.take_of_length_le hlen,
    List.drop_of_length_le hlen, chunksOfSucc_nil]

theorem chunksOfSucc_dropLast_aux (k : Nat) :
    ∀ (n : Nat) (l : List α), l.length ≤ n →
      ∀ w ∈ (chunksOfSucc k l).dropLast, w.length = k + 1 := by
  intro n
  induction n with
  | zero =>
    intro l hl w hw
    have hl0 : l = [] := List.length_eq_zero.mp (by omega)
    subst hl0
    rw [chunksOfSucc_nil] at hw
    simp at hw
  | succ n ih =>
    intro l hl w hw
    rcases l with _ | ⟨a, t⟩
    · rw [chunksOfSucc_nil] at hw
      simp at hw
    · rw [chunksOfSucc_cons] at hw
      by_cases hrest : (a :: t).drop (k + 1) = []
      · rw [hrest, chunksOfSucc_nil] at hw
        simp at hw
      · have hne : chunksOfSucc k ((a :: t).drop (k + 1)) ≠ [] := by
          rw [chunksOfSucc_of_ne_nil k _ hrest]
          simp
        rw [List.dropLast_cons_of_ne_nil hne] at hw
        rcases List.mem_cons.mp hw with rfl | hw
        · have hlen : k + 1 ≤ (a :: t).length := by
            by_contra hcon
            exact hrest (List.drop_of_length_le (by omega))
          simp only [List.length_cons] at hlen
          simp [List.length_take]
          omega
        · refine ih ((a :: t).drop (k + 1)) ?_ w hw
          simp only [List.length_drop, List.length_cons] at *
          omega

theorem chunksOfSucc_dropLast (k : Nat) (l : List α) :
    ∀ w ∈ (chunksOfSucc k l).dropLast, w.length = k + 1 :=
  chunksOfSucc_dropLast_aux k l.length l le_rfl

theorem wordsOf_good (text : List Char) :
    ∀ w ∈ wordsOf text, w ≠ [] ∧ ∀ c ∈ w, isWs c = false :=
  splitRuns_good isWs text

theorem wordCount_joinSep (ws : List (List Char))
    (h : ∀ w ∈ ws, w ≠ [] ∧ ∀ c ∈ w, isWs c = false) :
    wordCount (joinSep [' '] ws) = ws.length := by
  unfold wordCount wordsOf
  rw [joinSep_roundtrip isWs ' ' (by decide) ws h]

theorem joinSep_ne_nil (sep : List Char) (ws : List (List Char))
    (h0 : ws ≠ []) (h1 : ∀ w ∈ ws, w ≠ []) : joinSep sep ws ≠ [] := by
  match ws with
  | [] => exact absurd rfl h0
  | [w] => exact h1 w (by simp)
  | w :: w' :: t =>
    have hw : w ≠ [] := h1 w (by simp)
    simp only [joinSep]
    intro hcon
    exact hw (List.append_eq_nil.mp (List.append_eq_nil.mp hcon).1).1

theorem chunkWords_window_good (text : List Char) (k : Nat) :
    ∀ w ∈ chunksOfSucc k (wordsOf text), w ≠ [] ∧ ∀ x ∈ w, x ≠ [] ∧ ∀ c ∈ x, isWs c = false := by
  intro w hw
  exact ⟨chunksOfSucc_mem_ne_nil k _ w hw,
    fun x hx => wordsOf_good text x (chunksOfSucc_mem_subset k _ w hw x hx)⟩

/-- C2: `chunkWords` on a text with no words returns no fragments; with
exactly `targetWords` words it returns one fragment; with `2*targetWords + 1`
words it returns three with word counts `targetWords, targetWords, 1`; in
general every fragment except possibly the last has exactly `targetWords`
words and no fragment is empty. -/
theorem chunkWords_fragment_sizes : ∀ (text : List Char) (tw : Int),
    (wordsOf text = [] → chunkWords text tw = []) ∧
    (1 ≤ tw → ((wordsOf text).length : Int) = tw → (chunkWords text tw).length = 1) ∧
    (1 ≤ tw → ((wordsOf text).length : Int) = 2 * tw + 1 →
      ∃ a b c, chunkWords text tw = [a, b, c] ∧
        wordCount a = tw.toNat ∧ wordCount b = tw.toNat ∧ wordCount c = 1) ∧
    (1 ≤ tw → ∀ f ∈ (chunkWords text tw).dropLast, wordCount f = tw.toNat) ∧
    (1 ≤ tw → ∀ f ∈ chunkWords text tw, f ≠ []) := by
  intro text tw
  refine ⟨?_, ?_, ?_, ?_, ?_⟩
  · intro h
    unfold chunkWords
    rw [h]
    rfl
  · intro htw hlen
    rw [chunkWords_eq text tw htw]
    have hne : wordsOf text ≠ [] := by
      intro h
      have h0 : (wordsOf text).length = 0 := by rw [h]; rfl
      omega
    rw [chunksOfSucc_singleton (tw.toNat - 1) _ hne (by omega)]
    simp
  · intro htw hlen
    rw [chunkWords_eq text tw htw]
    have hkk : tw.toNat - 1 + 1 = tw.toNat := by omega
    have hlN : (wordsOf text).length = 2 * (tw.toNat - 1 + 1) + 1 := by omega
    have h1 : wordsOf text ≠ [] := by
      intro h
      have h0 : (wordsOf text).length = 0 := by rw [h]; rfl
      omega
    have hd1 : ((wordsOf text).drop (tw.toNat - 1 + 1)).length = tw.toNat - 1 + 2 := by
      rw [List.length_drop]
      omega
    have h2 : (wordsOf text).drop (tw.toNat - 1 + 1) ≠ [] := by
      intro h
      rw [h] at hd1
      simp only [List.length_nil] at hd1
      omega
    have hd2 : (((wordsOf text).drop (tw.toNat - 1 + 1)).drop (tw.toNat - 1 + 1)).length = 1 := by
      rw [List.length_drop, List.length_drop]
      omega
    have h3 : ((wordsOf text).drop (tw.toNat - 1 + 1)).drop (tw.toNat - 1 + 1) ≠ [] := by
      intro h
      rw [h] at hd2
      simp only [List.length_nil] at hd2
      omega
    have h4 : ((((wordsOf text).drop (tw.toNat - 1 + 1)).drop (tw.toNat - 1 + 1)).drop
        (tw.toNat - 1 + 1)) = [] := by
      refine List.drop_of_length_le ?_
      rw [List.length_drop, List.length_drop]
      omega
    rw [chunksOfSucc_of_ne_nil _ _ h1, chunksOfSucc_of_ne_nil _ _ h2,
      chunksOfSucc_of_ne_nil _ _ h3, h4, chunksOfSucc_nil]
    refine ⟨_, _, _, rfl, ?_, ?_, ?_⟩
    · rw [wordCount_joinSep _ (fun x hx => wordsOf_good text x (List.mem_of_mem_take hx))]
      rw [List.length_take]
      omega
    · rw [wordCount_joinSep _ (fun x hx => wordsOf_good text x
        (List.mem_of_mem_drop (List.mem_of_mem_take hx)))]
      rw [List.length_take, List.length_drop]
      omega
    · rw [wordCount_joinSep _ (fun x hx => wordsOf_good text x
        (List.mem_of_mem_drop (List.mem_of_mem_drop (List.mem_of_mem_take hx))))]
      rw [List.length_take, List.length_drop, List.length_drop]
      omega
  · intro htw f hf
    rw [chunkWords_eq text tw htw] at hf
    rw [← List.map_dropLast] at hf
    rcases List.mem_map.mp hf with ⟨w, hw, rfl⟩
    have hwin : w ∈ chunksOfSucc (tw.toNat - 1) (wordsOf text) :=
      List.dropLast_subset _ hw
    have hgood := chunkWords_window_good text (tw.toNat - 1) w hwin
    rw [wordCount_joinSep w hgood.2]
    have := chunksOfSucc_dropLast (tw.toNat - 1) (wordsOf text) w hw
    omega
  · intro htw f hf
    rw [chunkWords_eq text tw htw] at hf
    rcases List.mem_map.mp hf with ⟨w, hw, rfl⟩
    have hgood := chunkWords_window_good text (tw.toNat - 1) w hw
    exact joinSep_ne_nil [' '] w hgood.1 (fun x hx => (hgood.2 x hx).1)

/-- C2 witness: a five-word text with `targetWords = 2` produces fragments of
word counts `2, 2, 1`. -/
theorem chunkWords_fragment_sizes_witness :
    ∃ a b c, chunkWords "a b c d e".toList 2 = [a, b, c] ∧
      wordCount a = (2 : Int).toNat ∧ wordCount b = (2 : Int).toNat ∧ wordCount c = 1 :=
  (chunkWords_fragment_sizes "a b c d e".toList 2).2.2.1 (by decide) (by decide)

/-! ### C3: the operative slice -/

/-- C3: the operative fragment sequence is the `startFrom`/`maxFragments`
slice clipped to the available length; `startFrom = 2, maxFragments = 2` over
five fragments gives fragments 2 and 3, over one fragment the empty sequence. -/
theorem operativeChunks_spec : ∀ (l : List α) (s m : Int), 1 ≤ s → 1 ≤ m →
    (operativeChunks l s m = (l.drop (s - 1).toNat).take m.toNat) ∧
    (∀ (a b c d e : α), operativeChunks [a, b, c, d, e] 2 2 = [b, c]) ∧
    (∀ (x : α), operativeChunks [x] 2 2 = []) := by
  intro l s m hs hm
  refine ⟨?_, ?_, ?_⟩
  · unfold operativeChunks
    rw [jsSlice_nonneg l (s - 1) (s - 1 + m) (by omega) (by omega)]
    congr 1
    omega
  · intro a b c d e
    rfl
  · intro x
    rfl

/-- C3 witness: the slice at concrete inputs. -/
theorem operativeChunks_spec_witness :
    operativeChunks [10, 20, 30, 40, 50] 2 2 = ([20, 30] : List Nat) :=
  (operativeChunks_spec [10, 20, 30, 40, 50] 2 2 (by decide) (by decide)).2.1 10 20 30 40 50

/-! ### C10: termination of `chunkWords` and parameter clamping -/

theorem chunkLoop_terminates_pos (text : List Char) (tw : Int) (htw : 1 ≤ tw) :
    ChunkWordsTerminates text tw := by
  refine ⟨(wordsOf text).length + 1, ?_⟩
  rw [chunkLoop_spec tw htw (wordsOf text) _ 0 [] le_rfl (by omega) (by omega)]
  rfl

theorem chunkLoop_terminates_nil (text : List Char) (tw : Int)
    (h : wordsOf text = []) : ChunkWordsTerminates text tw := by
  refine ⟨1, ?_⟩
  rw [h]
  rfl

/-- C10: the `chunkWords` loop terminates iff `targetWords ≥ 1` or the word
sequence is empty (for `targetWords ≤ 0` on a nonempty word sequence the loop
counter never advances past 0); the handler passes the client-supplied
`targetWords` through unclamped while clamping `maxFragments` and `startFrom`
to at least 1. -/
theorem chunkWords_terminates_iff : ∀ (text : List Char) (tw : Int),
    (ChunkWordsTerminates text tw ↔ 1 ≤ tw ∨ wordsOf text = []) ∧
    (∀ (mf sf : Option Int) (v : Int), (deriveParams mf (some v) sf).targetWords = v) ∧
    (∀ (mf tws sf : Option Int),
      1 ≤ (deriveParams mf tws sf).maxFragments ∧ 1 ≤ (deriveParams mf tws sf).startFrom) := by
  intro text tw
  refine ⟨⟨?_, ?_⟩, ?_, ?_⟩
  · intro hterm
    by_contra hcon
    push_neg at hcon
    rcases hterm with ⟨fuel, hfuel⟩
    rw [chunkLoop_stuck tw (by omega) (wordsOf text) hcon.2 fuel 0 [] le_rfl] at hfuel
    simp at hfuel
  · intro h
    rcases h with h | h
    · exact chunkLoop_terminates_pos text tw h
    · exact chunkLoop_terminates_nil text tw h
  · intro mf sf v
    rfl
  · intro mf tws sf
    constructor
    · exact le_max_left 1 _
    · exact le_max_left 1 _

/-! ### C1: the orchestrator -/

theorem range_map_shift (i k : Nat) :
    (List.range (k + 1)).map (fun j => i + j) =
      i :: (List.range k).map (fun j => (i + 1) + j) := by
  rw [List.range_succ_eq_map]
  simp only [List.map_cons, List.map_map, Nat.add_zero]
  congr 1
  apply List.map_congr_left
  intro j _
  simp only [Function.comp_apply]
  omega

theorem orchestrateGo_spec (gen : Nat → Except E L) (sf : Nat) (e : E) :
    ∀ (chunks : List α) (i k : Nat), 1 ≤ k → k ≤ chunks.length →
      (∀ j, j < k - 1 → ∃ l, gen (i + j) = .ok l) →
      gen (i + (k - 1)) = .error e →
      ((orchestrateGo gen sf i chunks).1.map Prod.fst =
        (List.range (k - 1)).map (fun j => sf + i + j)) ∧
      (∀ j l, j < k - 1 → gen (i + j) = .ok l →
        (orchestrateGo gen sf i chunks).1.get? j = some (sf + i + j, l)) ∧
      ((orchestrateGo gen sf i chunks).2.1 = some (sf + i + (k - 1), e)) ∧
      ((orchestrateGo gen sf i chunks).2.2 = (List.range k).map (fun j => i + j)) := by
  intro chunks
  induction chunks with
  | nil =>
    intro i k hk hlen
    simp only [List.length_nil] at hlen
    omega
  | cons c rest ih =>
    intro i k hk hlen hok herr
    match k, hk with
    | 1, _ =>
      simp only [Nat.sub_self, Nat.add_zero] at herr
      simp only [orchestrateGo, herr]
      refine ⟨rfl, ?_, rfl, rfl⟩
      intro j l hj
      omega
    | k' + 2, _ =>
      obtain ⟨l0, hl0⟩ := hok 0 (by omega)
      rw [Nat.add_zero] at hl0
      have hlen2 : k' + 1 ≤ rest.length := by
        simp only [List.length_cons] at hlen
        omega
      have hrec := ih (i + 1) (k' + 1) (by omega) hlen2
        (fun j hj => by
          have hj2 := hok (j + 1) (by omega)
          rwa [show i + (j + 1) = i + 1 + j by omega] at hj2)
        (by rwa [show i + 1 + (k' + 1 - 1) = i + (k' + 2 - 1) by omega])
      simp only [orchestrateGo, hl0]
      rcases hgo : orchestrateGo gen sf (i + 1) rest with ⟨ls, err, att⟩
      rw [hgo] at hrec
      simp only at hrec
      refine ⟨?_, ?_, ?_, ?_⟩
      · simp only [List.map_cons]
        rw [hrec.1]
        have hm1 : k' + 2 - 1 = k' + 1 := by omega
        have hm2 : k' + 1 - 1 = k' := by omega
        rw [hm1, hm2, range_map_shift (sf + i) k']
        rfl
      · intro j l hj hgenj
        match j with
        | 0 =>
          rw [Nat.add_zero] at hgenj
          rw [hl0] at hgenj
          injection hgenj with hll
          subst hll
          simp
        | j + 1 =>
          have hthis := hrec.2.1 j l (by omega)
            (by rwa [show i + 1 + j = i + (j + 1) by omega])
          have harith : sf + (i + 1) + j = sf + i + (j + 1) := by omega
          rw [harith] at hthis
          simpa using hthis
      · simp only
        rw [hrec.2.2.1]
        congr 2
        omega
      · simp only
        rw [hrec.2.2.2]
        have h22 : k' + 2 = k' + 1 + 1 := by omega
        rw [h22, range_map_shift i (k' + 1)]

/-- C1: if the generator call at operative position `k` (1-indexed) fails and
all earlier calls succeed, the orchestrator returns exactly the results for
positions `1..k-1` in order (a strict gapless prefix), one error record naming
absolute index `startFrom + k - 1`, and the generator was invoked exactly once
at each of the operative positions `1..k` and never after the failure. -/
theorem orchestrate_stops_at_first_failure (gen : Nat → Except E L) (sf : Nat)
    (chunks : List α) (k : Nat) (e : E) (hk : 1 ≤ k) (hlen : k ≤ chunks.length)
    (hok : ∀ j, j < k - 1 → ∃ l, gen j = .ok l) (herr : gen (k - 1) = .error e) :
    ((orchestrate gen sf chunks).1.map Prod.fst =
      (List.range (k - 1)).map (fun j => sf + j)) ∧
    (∀ j l, j < k - 1 → gen j = .ok l →
      (orchestrate gen sf chunks).1.get? j = some (sf + j, l)) ∧
    ((orchestrate gen sf chunks).2.1 = some (sf + k - 1, e)) ∧
    ((orchestrate gen sf chunks).2.2 = List.range k) := by
  have h := orchestrateGo_spec gen sf e chunks 0 k hk hlen
    (fun j hj => by simpa using hok j hj) (by simpa using herr)
  unfold orchestrate
  refine ⟨?_, ?_, ?_, ?_⟩
  · rw [h.1]
    apply List.map_congr_left
    intro j _
    omega
  · intro j l hj hgen
    have := h.2.1 j l hj (by simpa using hgen)
    simpa using this
  · rw [h.2.2.1]
    congr 2
    omega
  · rw [h.2.2.2]
    simp

/-- C1 witness: a generator failing at operative position 3 over four
operative fragments with `startFrom = 5`. -/
theorem orchestrate_stops_at_first_failure_witness :
    ((orchestrate (fun j => if j < 2 then Except.ok j else Except.error 7) 5
        ([10, 20, 30, 40] : List Nat)).1.map Prod.fst =
      (List.range 2).map (fun j => 5 + j)) ∧
    ((orchestrate (fun j => if j < 2 then Except.ok j else Except.error 7) 5
        ([10, 20, 30, 40] : List Nat)).2.1 = some (5 + 3 - 1, 7)) ∧
    ((orchestrate (fun j => if j < 2 then Except.ok j else Except.error 7) 5
        ([10, 20, 30, 40] : List Nat)).2.2 = List.range 3) := by
  have h := orchestrate_stops_at_first_failure
    (fun j => if j < 2 then Except.ok j else Except.error 7) 5
    ([10, 20, 30, 40] : List Nat) 3 7 (by decide) (by decide)
    (fun j hj => ⟨j, if_pos (by omega)⟩) rfl
  exact ⟨h.1, h.2.2.1, h.2.2.2⟩

/-! ### C4: path normalisation -/

theorem normSegs_mem : ∀ (segs out : List (List Char)),
    ∀ w ∈ normSegs segs out,
      w ∈ out ∨ (w ∈ segs ∧ w ≠ ['.'] ∧ w ≠ ['.', '.']) := by
  intro segs
  induction segs with
  | nil =>
    intro out w hw
    simp only [normSegs] at hw
    exact Or.inl (List.mem_reverse.mp hw)
  | cons p rest ih =>
    intro out w hw
    simp only [normSegs] at hw
    by_cases h1 : p = ['.']
    · rw [if_pos h1] at hw
      rcases ih out w hw with h | h
      · exact Or.inl h
      · exact Or.inr ⟨List.mem_cons_of_mem p h.1, h.2⟩
    · rw [if_neg h1] at hw
      by_cases h2 : p = ['.', '.']
      · rw [if_pos h2] at hw
        rcases ih out.tail w hw with h | h
        · exact Or.inl (List.mem_of_mem_tail h)
        · exact Or.inr ⟨List.mem_cons_of_mem p h.1, h.2⟩
      · rw [if_neg h2] at hw
        rcases ih (p :: out) w hw with h | h
        · rcases List.mem_cons.mp h with rfl | h
          · exact Or.inr ⟨List.mem_cons_self w rest, h1, h2⟩
          · exact Or.inl h
        · exact Or.inr ⟨List.mem_cons_of_mem p h.1, h.2⟩

theorem normSegs_no_dots : ∀ (segs out : List (List Char)),
    (∀ s ∈ segs, s ≠ ['.'] ∧ s ≠ ['.', '.']) →
    normSegs segs out = out.reverse ++ segs := by
  intro segs
  induction segs with
  | nil => intro out _; simp [normSegs]
  | cons p rest ih =>
    intro out h
    have hp := h p (List.mem_cons_self p rest)
    simp only [normSegs, if_neg hp.1, if_neg hp.2]
    rw [ih (p :: out) (fun s hs => h s (List.mem_cons_of_mem p hs))]
    simp

theorem stripFrag_of_no_hash (s : List Char) (h : '#' ∉ s) : stripFrag s = s := by
  induction s with
  | nil => rfl
  | cons c r ih =>
    have hc : c ≠ '#' := fun hcon => h (hcon ▸ List.mem_cons_self c r)
    simp only [stripFrag, List.takeWhile_cons] at *
    rw [if_pos (by simpa using hc)]
    rw [ih (fun hcon => h (List.mem_cons_of_mem c hcon))]

theorem normalizePath_output_good (b h : List Char) :
    ∀ w ∈ normSegs (splitRuns (fun c => c == '/') (b ++ stripFrag h)) [],
      w ≠ [] ∧ (∀ c ∈ w, (c == '/') = false) ∧ w ≠ ['.'] ∧ w ≠ ['.', '.'] := by
  intro w hw
  rcases normSegs_mem _ [] w hw with hcon | ⟨hmem, hdots⟩
  · simp at hcon
  · have hgood := splitRuns_good (fun c => c == '/') (b ++ stripFrag h) w hmem
    exact ⟨hgood.1, hgood.2, hdots⟩

/-- C4: path normalisation is idempotent (re-normalising an
already-normalised path returns it unchanged; also through the href slot when
the path carries no `#`); `normalize("a/b/", "../c.html") = "a/c.html"`; the
manifest href `text/ch1.xhtml` against the base directory of package path
`OEBPS/content.opf` resolves to `OEBPS/text/ch1.xhtml`; and a leading `..`
against an empty segment stack is a no-op, not an error. -/
theorem normalizePath_idempotent : ∀ (b h : List Char),
    (normalizePath (normalizePath b h) [] = normalizePath b h) ∧
    ('#' ∉ normalizePath b h → normalizePath [] (normalizePath b h) = normalizePath b h) ∧
    (∀ t : List Char, normalizePath [] ('.' :: '.' :: '/' :: t) = normalizePath [] t) ∧
    (normalizePath "a/b/".toList "../c.html".toList = "a/c.html".toList) ∧
    (normalizePath (baseDirOf "OEBPS/content.opf".toList) "text/ch1.xhtml".toList =
      "OEBPS/text/ch1.xhtml".toList) := by
  have key : ∀ (b h : List Char),
      normalizePath (normalizePath b h) [] = normalizePath b h := by
    intro b h
    have hgood := normalizePath_output_good b h
    unfold normalizePath
    rw [show stripFrag [] = [] from rfl, List.append_nil]
    rw [joinSep_roundtrip (fun c => c == '/') '/' (by decide) _
      (fun w hw => ⟨(hgood w hw).1, (hgood w hw).2.1⟩)]
    rw [normSegs_no_dots _ [] (fun s hs => (hgood s hs).2.2)]
    rfl
  intro b h
  refine ⟨key b h, ?_, ?_, by decide, by decide⟩
  · have hswap : ∀ x : List Char, '#' ∉ x → normalizePath [] x = normalizePath x [] := by
      intro x hx
      unfold normalizePath
      rw [stripFrag_of_no_hash x hx, show stripFrag ([] : List Char) = [] from rfl,
        List.append_nil, List.nil_append]
    intro hhash
    rw [hswap _ hhash, key b h]
  · intro t
    unfold normalizePath
    have hsf : stripFrag ('.' :: '.' :: '/' :: t) = '.' :: '.' :: '/' :: stripFrag t := rfl
    rw [hsf, List.nil_append, List.nil_append]
    have hshape : ('.' :: '.' :: '/' :: stripFrag t : List Char) =
        ['.', '.'] ++ '/' :: stripFrag t := rfl
    rw [hshape, splitRuns_word_append (fun c => c == '/') ['.', '.'] (stripFrag t) '/'
      (by decide) (by decide) (by decide)]
    simp only [normSegs]
    rw [if_neg (show ¬(['.', '.'] = ['.'] : Prop) by decide)]
    simp

/-- C4 witness: idempotence through the href slot at a concrete input. -/
theorem normalizePath_idempotent_witness :
    normalizePath [] (normalizePath "a/b/".toList "../c.html".toList) =
      normalizePath "a/b/".toList "../c.html".toList :=
  (normalizePath_idempotent "a/b/".toList "../c.html".toList).2.1 (by decide)

/-! ### C9: spine resolution -/

theorem spineLoop_mem (manifest : List (List Char × List Char)) (baseDir : List Char)
    (files : Archive) : ∀ (tags : List (List Char)),
    ∀ p ∈ spineLoop manifest baseDir files tags,
      (files.lookup p).isSome = true ∧ extTeB p = true := by
  intro tags
  induction tags with
  | nil => intro p hp; simp [spineLoop] at hp
  | cons tag rest ih =>
    intro p hp
    simp only [spineLoop] at hp
    rcases hidref : getAttr tag "idref".toList with _ | idref
    · simp only [hidref] at hp
      exact ih p hp
    · simp only [hidref] at hp
      rcases hhref : manifest.lookup idref with _ | href
      · simp only [hhref] at hp
        exact ih p hp
      · simp only [hhref] at hp
        by_cases hext : extTeB (normalizePath baseDir href) = true
        · rw [if_pos hext] at hp
          by_cases hfil : (files.lookup (normalizePath baseDir href)).isSome = true
          · rw [if_pos hfil] at hp
            rcases List.mem_cons.mp hp with rfl | hp
            · exact ⟨hfil, hext⟩
            · exact ih p hp
          · rw [if_neg hfil] at hp
            exact ih p hp
        · rw [if_neg hext] at hp
          exact ih p hp

/-- C9: every path in the spine-derived reading order exists in the archive
and has a text-document extension; spine entries with no `idref`, an
unresolvable `idref`, a non-text extension, or a missing archive entry are
silently dropped (they leave the rest of the resolution unchanged, with no
failure). -/
theorem spinePaths_exist_and_text : ∀ (files : Archive) (opfPath : List Char),
    (∀ p ∈ spineHtmlPaths files opfPath,
      (files.lookup p).isSome = true ∧ extTeB p = true) ∧
    (∀ (manifest : List (List Char × List Char)) (baseDir : List Char)
        (tags : List (List Char)) (tag : List Char),
      getAttr tag "idref".toList = none →
      spineLoop manifest baseDir files (tag :: tags) =
        spineLoop manifest baseDir files tags) ∧
    (∀ (manifest : List (List Char × List Char)) (baseDir : List Char)
        (tags : List (List Char)) (tag idref : List Char),
      getAttr tag "idref".toList = some idref →
      manifest.lookup idref = none →
      spineLoop manifest baseDir files (tag :: tags) =
        spineLoop manifest baseDir files tags) ∧
    (∀ (manifest : List (List Char × List Char)) (baseDir : List Char)
        (tags : List (List Char)) (tag idref href : List Char),
      getAttr tag "idref".toList = some idref →
      manifest.lookup idref = some href →
      (extTeB (normalizePath baseDir href) = false ∨
        (files.lookup (normalizePath baseDir href)).isSome = false) →
      spineLoop manifest baseDir files (tag :: tags) =
        spineLoop manifest baseDir files tags) := by
  intro files opfPath
  refine ⟨?_, ?_, ?_, ?_⟩
  · intro p hp
    exact spineLoop_mem _ _ files _ p hp
  · intro manifest baseDir tags tag h
    have h0 : getAttr tag ['i', 'd', 'r', 'e', 'f'] = none := h
    simp [spineLoop, h0]
  · intro manifest baseDir tags tag idref h1 h2
    have h0 : getAttr tag ['i', 'd', 'r', 'e', 'f'] = some idref := h1
    simp [spineLoop, h0, h2]
  · intro manifest baseDir tags tag idref href h1 h2 h3
    have h0 : getAttr tag ['i', 'd', 'r', 'e', 'f'] = some idref := h1
    simp only [spineLoop, h0, h1, h2]
    rcases h3 with h3 | h3
    · rw [if_neg (by simp [h3])]
    · by_cases hext : extTeB (normalizePath baseDir href) = true
      · rw [if_pos hext, if_neg (by simp [h3])]
      · rw [if_neg hext]

/-- C9 witness: a concrete OPF whose spine resolves one existing text
document; the resolved path exists in the archive and is a text document. -/
theorem spinePaths_exist_and_text_witness :
    ((([("OEBPS/content.opf".toList,
        "<item id=\"c1\" href=\"text/ch1.xhtml\"/><itemref idref=\"c1\"/>".toList),
       ("OEBPS/text/ch1.xhtml".toList, "x".toList)] : Archive).lookup
        "OEBPS/text/ch1.xhtml".toList).isSome = true ∧
      extTeB "OEBPS/text/ch1.xhtml".toList = true) :=
  (spinePaths_exist_and_text
    [("OEBPS/content.opf".toList,
      "<item id=\"c1\" href=\"text/ch1.xhtml\"/><itemref idref=\"c1\"/>".toList),
     ("OEBPS/text/ch1.xhtml".toList, "x".toList)]
    "OEBPS/content.opf".toList).1 "OEBPS/text/ch1.xhtml".toList (by decide)

/-! ### C5: the container resolver -/

theorem ciPre_append_of_ciMismatch : ∀ (pat w t : List Char),
    ciMismatch pat w = true → ciPre pat (w ++ t) = false := by
  intro pat
  induction pat with
  | nil => intro w t h; simp [ciMismatch] at h
  | cons p ps ih =>
    intro w t h
    cases w with
    | nil => simp [ciMismatch] at h
    | cons c cs =>
      simp only [ciMismatch, Bool.or_eq_true] at h
      simp only [List.cons_append, ciPre, Bool.and_eq_false_iff]
      rcases h with h | h
      · exact Or.inl (by simpa using h)
      · exact Or.inr (ih cs t h)

theorem findFullPath_peel : ∀ (w t : List Char) (fuel : Nat),
    (∀ i, i < w.length → ciMismatch "full-path=\"".toList (w.drop i) = true) →
    findFullPath (w.length + fuel) (w ++ t) = findFullPath fuel t := by
  intro w
  induction w with
  | nil =>
    intro t fuel _
    rw [List.length_nil, Nat.zero_add, List.nil_append]
  | cons c cs ih =>
    intro t fuel h
    have h0 : ciMismatch "full-path=\"".toList (c :: cs) = true := by
      simpa using h 0 (by simp)
    have hat : fullPathAt (c :: (cs ++ t)) = none := by
      have h1 := ciPre_append_of_ciMismatch _ (c :: cs) t h0
      rw [List.cons_append] at h1
      unfold fullPathAt
      rw [if_neg (by simp only [Bool.not_eq_true]; exact h1)]
    have hlen : (c :: cs).length + fuel = (cs.length + fuel) + 1 := by
      simp only [List.length_cons]
      omega
    rw [List.cons_append, hlen]
    simp only [findFullPath, hat]
    exact ih t fuel (fun i hi => by simpa using h (i + 1) (by simpa using hi))

theorem ciPre_self : ∀ (pat t : List Char),
    (∀ c ∈ pat, asciiToLower c = c) → ciPre pat (pat ++ t) = true := by
  intro pat
  induction pat with
  | nil => intro t _; rfl
  | cons p ps ih =>
    intro t h
    simp only [List.cons_append, ciPre, Bool.and_eq_true]
    refine ⟨by simp [h p (by simp)], ih t (fun c hc => h c (by simp [hc]))⟩

theorem takeWhile_append_stop (p : Char → Bool) : ∀ (v t : List Char) (d : Char),
    (∀ c ∈ v, p c = true) → p d = false → (v ++ d :: t).takeWhile p = v := by
  intro v
  induction v with
  | nil => intro t d _ hd; simp [List.takeWhile_cons, hd]
  | cons c cs ih =>
    intro t d h hd
    simp only [List.cons_append, List.takeWhile_cons, h c (by simp), if_true]
    rw [ih t d (fun x hx => h x (by simp [hx])) hd]

theorem fullPathAt_match (v t : List Char) (hv : v ≠ []) (hq : '"' ∉ v) :
    fullPathAt ("full-path=\"".toList ++ (v ++ '"' :: t)) = some v := by
  have hciPre := ciPre_self "full-path=\"".toList (v ++ '"' :: t) (by decide)
  have hdrop : ("full-path=\"".toList ++ (v ++ '"' :: t)).drop 11 = v ++ '"' :: t := by
    have h := List.drop_left "full-path=\"".toList (v ++ '"' :: t)
    simp only [String.toList] at h
    exact h
  have htake : (v ++ '"' :: t).takeWhile (fun c => c != '"') = v :=
    takeWhile_append_stop _ v t '"'
      (fun c hc => by
        simp only [bne_iff_ne, ne_eq]
        intro hcon
        exact hq (hcon ▸ hc))
      (by decide)
  have hdrop2 : (v ++ '"' :: t).drop v.length = '"' :: t := List.drop_left v ('"' :: t)
  simp only [fullPathAt, hciPre, if_true, hdrop, htake, hdrop2, if_neg hv]

theorem findFullPath_step (fuel : Nat) (s v : List Char) (h : fullPathAt s = some v) :
    findFullPath (fuel + 1) s = some v := by
  simp only [findFullPath, h]

theorem findFullPath_found (w v t : List Char) (hv : v ≠ []) (hq : '"' ∉ v)
    (hw : ∀ i, i < w.length → ciMismatch "full-path=\"".toList (w.drop i) = true) :
    findFullPath ((w ++ ("full-path=\"".toList ++ (v ++ '"' :: t))).length + 1)
      (w ++ ("full-path=\"".toList ++ (v ++ '"' :: t))) = some v := by
  rw [List.length_append,
    show w.length + ("full-path=\"".toList ++ (v ++ '"' :: t)).length + 1 =
      w.length + (("full-path=\"".toList ++ (v ++ '"' :: t)).length + 1) by omega,
    findFullPath_peel w _ _ hw]
  exact findFullPath_step _ _ v (fullPathAt_match v t hv hq)

/-- C5 counterexample: an archive whose container entry declares the
`full-path` attribute in single-quote style; the resolver fails with
`opfPathNotFound` instead of returning the declared path, refuting
"regardless of quote style". -/
theorem findOpfPath_single_quote_fails :
    (∃ pre post : List Char,
      ("<rootfile full-path=".toList ++ '\'' :: "OEBPS/content.opf".toList ++
        '\'' :: "/>".toList) =
        pre ++ ("full-path=".toList ++ '\'' :: "OEBPS/content.opf".toList ++ ['\'']) ++ post) ∧
    findOpfPath [("META-INF/container.xml".toList,
      "<rootfile full-path=".toList ++ '\'' :: "OEBPS/content.opf".toList ++
        '\'' :: "/>".toList)] = .error .opfPathNotFound := by
  constructor
  · exact ⟨"<rootfile ".toList, "/>".toList, by decide⟩
  · rfl

theorem findOpfPath_cons_found (p c : List Char) (rest : Archive)
    (hp : containerKeyB p = true) :
    findOpfPath ((p, c) :: rest) =
      match findFullPath (c.length + 1) c with
      | none => .error .opfPathNotFound
      | some v => .ok v := by
  unfold findOpfPath
  have hfind : List.find? (fun e : List Char × List Char => containerKeyB e.1)
      ((p, c) :: rest) = some (p, c) :=
    List.find?_cons_of_pos _ (by simpa using hp)
  rw [hfind]

/-- C5 (amended): the container resolver returns the path named by a
double-quoted `full-path` attribute on the root-file declaration regardless of
attribute order; a single-quoted attribute is not recognised (see the
counterexample); it fails with the container error when no entry ends
case-insensitively with `META-INF/container.xml` and with the package-path
error when no double-quoted `full-path` attribute is present. -/
theorem findOpfPath_double_quoted (v p : List Char) (rest : Archive)
    (hv : v ≠ []) (hq : '"' ∉ v) (hp : containerKeyB p = true) :
    (findOpfPath ((p, "<rootfile full-path=\"".toList ++
        (v ++ "\" media-type=\"application/oebps-package+xml\"/>".toList)) :: rest) = .ok v) ∧
    (findOpfPath ((p, "<rootfile media-type=\"application/oebps-package+xml\" full-path=\"".toList
        ++ (v ++ "\"/>".toList)) :: rest) = .ok v) ∧
    (∀ files : Archive, (∀ e ∈ files, containerKeyB e.1 = false) →
      findOpfPath files = .error .containerNotFound) ∧
    (findOpfPath [(p, "<rootfile media-type=\"application/oebps-package+xml\"/>".toList)] =
      .error .opfPathNotFound) := by
  refine ⟨?_, ?_, ?_, ?_⟩
  · rw [findOpfPath_cons_found _ _ _ hp]
    have hshape : ("<rootfile full-path=\"".toList ++
        (v ++ "\" media-type=\"application/oebps-package+xml\"/>".toList) : List Char) =
        "<rootfile ".toList ++ ("full-path=\"".toList ++
          (v ++ '"' :: " media-type=\"application/oebps-package+xml\"/>".toList)) := by
      simp
    rw [hshape, findFullPath_found "<rootfile ".toList v _ hv hq (by decide)]
  · rw [findOpfPath_cons_found _ _ _ hp]
    have hshape : ("<rootfile media-type=\"application/oebps-package+xml\" full-path=\"".toList
        ++ (v ++ "\"/>".toList) : List Char) =
        "<rootfile media-type=\"application/oebps-package+xml\" ".toList ++
          ("full-path=\"".toList ++ (v ++ '"' :: "/>".toList)) := by
      simp
    rw [hshape, findFullPath_found
      "<rootfile media-type=\"application/oebps-package+xml\" ".toList v _ hv hq (by decide)]
  · intro files hall
    unfold findOpfPath
    rw [List.find?_eq_none.mpr (fun e he => by simp [hall e he])]
  · rw [findOpfPath_cons_found _ _ _ hp]
    rfl

/-- C5 witness: both attribute orders at a concrete path and value. -/
theorem findOpfPath_double_quoted_witness :
    findOpfPath [("META-INF/container.xml".toList, "<rootfile full-path=\"".toList ++
      ("OEBPS/content.opf".toList ++
        "\" media-type=\"application/oebps-package+xml\"/>".toList))] =
      .ok "OEBPS/content.opf".toList :=
  (findOpfPath_double_quoted "OEBPS/content.opf".toList "META-INF/container.xml".toList []
    (by decide) (by decide) (by decide)).1

/-! ### C8: slugify -/

theorem dropTrail_cons (p : Char → Bool) (c : Char) (X : List Char) :
    dropTrail p (c :: X) =
      if dropTrail p X = [] then (if p c then [] else [c]) else c :: dropTrail p X := by
  unfold dropTrail
  rw [show ((c :: X).reverse : List Char) = X.reverse ++ [c] by simp,
    List.dropWhile_append]
  by_cases hX : (X.reverse.dropWhile p).isEmpty = true
  · rw [if_pos hX]
    have hX2 : (X.reverse.dropWhile p).reverse = [] := by
      rw [List.isEmpty_iff] at hX
      simp [hX]
    rw [if_pos hX2]
    by_cases hc : p c = true
    · simp [List.dropWhile_cons, hc]
    · simp [List.dropWhile_cons, hc]
  · rw [if_neg hX]
    have hX2 : ¬((X.reverse.dropWhile p).reverse = []) := by
      rw [List.isEmpty_iff] at hX
      simp [hX]
    rw [if_neg hX2]
    simp

theorem dropTrail_cons_pos (p : Char → Bool) (c : Char) (hc : p c = true) (X : List Char) :
    dropTrail p (c :: X) = if dropTrail p X = [] then [] else c :: dropTrail p X := by
  rw [dropTrail_cons, hc]
  simp only [if_true]

theorem dropTrail_cons_neg (p : Char → Bool) (c : Char) (hc : p c = false) (X : List Char) :
    dropTrail p (c :: X) = c :: dropTrail p X := by
  rw [dropTrail_cons, hc]
  simp only [Bool.false_eq_true, if_false]
  by_cases hX : dropTrail p X = []
  · rw [if_pos hX, hX]
  · rw [if_neg hX]

theorem dropTrail_dropWhile_comm (p : Char → Bool) : ∀ l : List Char,
    dropTrail p (l.dropWhile p) = (dropTrail p l).dropWhile p := by
  intro l
  induction l with
  | nil => rfl
  | cons c r ih =>
    by_cases hc : p c = true
    · rw [List.dropWhile_cons_of_pos hc, ih, dropTrail_cons_pos p c hc r]
      by_cases hr : dropTrail p r = []
      · rw [if_pos hr, hr]
      · rw [if_neg hr, List.dropWhile_cons_of_pos hc]
    · have hc' : p c = false := by revert hc; cases p c <;> simp
      rw [List.dropWhile_cons_of_neg hc]
      rw [dropTrail_cons_neg p c hc']
      rw [List.dropWhile_cons_of_neg hc]


theorem splitPair_fst (p : Char → Bool) : ∀ s : List Char,
    (splitPair p s).1 = s.takeWhile (fun c => !p c) := by
  intro s
  induction s with
  | nil => rfl
  | cons c r ih =>
    rw [splitPair_cons]
    by_cases hc : p c = true
    · rw [List.takeWhile_cons_of_neg (by simp [hc])]
      simp [splitStep, hc]
    · have hc' : p c = false := by revert hc; cases p c <;> simp
      rw [List.takeWhile_cons_of_pos (by simp [hc'])]
      simp [splitStep, hc', ih]

theorem splitRuns_cons_neg (p : Char → Bool) (c : Char) (r : List Char) (hc : p c = false) :
    splitRuns p (c :: r) = (c :: (splitPair p r).1) :: (splitPair p r).2 := by
  simp [splitRuns, splitPair_cons, splitStep, hc]

theorem splitRuns_dropWhile (p : Char → Bool) : ∀ r : List Char,
    splitRuns p (r.dropWhile p) = splitRuns p r := by
  intro r
  induction r with
  | nil => rfl
  | cons c t ih =>
    by_cases hc : p c = true
    · rw [List.dropWhile_cons_of_pos hc, ih, splitRuns_sep p c t hc]
    · rw [List.dropWhile_cons_of_neg hc]

theorem drop_takeWhile_length (p : Char → Bool) : ∀ l : List Char,
    l.drop (l.takeWhile p).length = l.dropWhile p := by
  intro l
  induction l with
  | nil => rfl
  | cons c r ih =>
    by_cases hc : p c = true
    · rw [List.takeWhile_cons_of_pos hc, List.dropWhile_cons_of_pos hc]
      simp only [List.length_cons, List.drop_succ_cons]
      exact ih
    · rw [List.takeWhile_cons_of_neg hc, List.dropWhile_cons_of_neg hc]
      rfl

theorem collapse_step_alnum (fuel : Nat) (c : Char) (r : List Char)
    (hc : isLowerAlnum c = true) :
    scanRepl nonAlnumMatch (fuel + 1) (c :: r) = c :: scanRepl nonAlnumMatch fuel r := by
  have hm : nonAlnumMatch (c :: r) = none := by
    unfold nonAlnumMatch
    rw [List.takeWhile_cons_of_neg (by simp [hc])]
    simp
  simp [scanRepl, hm]

theorem collapse_step_q (fuel : Nat) (c : Char) (r : List Char)
    (hc : isLowerAlnum c = false) :
    scanRepl nonAlnumMatch (fuel + 1) (c :: r) =
      '_' :: scanRepl nonAlnumMatch fuel (r.dropWhile (fun x => !isLowerAlnum x)) := by
  have hrun : (c :: r).takeWhile (fun x => !isLowerAlnum x) =
      c :: r.takeWhile (fun x => !isLowerAlnum x) :=
    List.takeWhile_cons_of_pos (by simp [hc])
  have hm : nonAlnumMatch (c :: r) =
      some (['_'], r.dropWhile (fun x => !isLowerAlnum x)) := by
    unfold nonAlnumMatch
    rw [hrun, if_neg (by simp)]
    simp only [List.length_cons, List.drop_succ_cons]
    rw [drop_takeWhile_length]
  simp [scanRepl, hm]

theorem joinSep_cons_head (sep : List Char) (c : Char) (w : List Char)
    (ws : List (List Char)) :
    joinSep sep ((c :: w) :: ws) = c :: joinSep sep (w :: ws) := by
  cases ws with
  | nil => rfl
  | cons w2 ws2 => simp [joinSep]

theorem headNonAlnum_dropWhile : ∀ r : List Char,
    headNonAlnum (r.dropWhile (fun x => !isLowerAlnum x)) = false := by
  intro r
  induction r with
  | nil => rfl
  | cons c t ih =>
    by_cases hc : isLowerAlnum c = true
    · rw [List.dropWhile_cons_of_neg (by simp [hc])]
      simp [headNonAlnum, hc]
    · have hc' : isLowerAlnum c = false := by revert hc; cases isLowerAlnum c <;> simp
      rw [List.dropWhile_cons_of_pos (by simp [hc'])]
      exact ih

theorem collapse_dropTrail : ∀ (fuel : Nat) (s : List Char), s.length ≤ fuel →
    dropTrail (fun c => c == '_') (scanRepl nonAlnumMatch fuel s) =
      undIf (headNonAlnum s && !(splitRuns (fun c => !isLowerAlnum c) s).isEmpty) ++
        joinSep ['_'] (splitRuns (fun c => !isLowerAlnum c) s) := by
  intro fuel
  induction fuel with
  | zero =>
    intro s hs
    have hnil : s = [] := List.length_eq_zero.mp (by omega)
    subst hnil
    rfl
  | succ fuel ih =>
    intro s hs
    match s with
    | [] => rfl
    | c :: r =>
      by_cases hc : isLowerAlnum c = true
      · have hU : ((c == '_') = false) := by
          by_cases hq : c = '_'
          · subst hq
            exact absurd hc (by decide)
          · simp [hq]
        rw [collapse_step_alnum fuel c r hc, dropTrail_cons_neg _ c hU _,
          ih r (by simpa using hs)]
        have hhead : headNonAlnum (c :: r) = false := by simp [headNonAlnum, hc]
        rw [hhead]
        simp only [Bool.false_and, undIf, Bool.false_eq_true, if_false, List.nil_append]
        match r with
        | [] =>
          rw [splitRuns_cons_neg _ c [] (by simp [hc])]
          rfl
        | d :: r2 =>
          by_cases hd : isLowerAlnum d = true
          · have hhead2 : headNonAlnum (d :: r2) = false := by simp [headNonAlnum, hd]
            rw [hhead2]
            simp only [Bool.false_and, undIf, if_neg (by simp : ¬(False : Prop)),
              List.nil_append]
            rw [splitRuns_cons_neg _ c (d :: r2) (by simp [hc]),
              splitRuns_cons_neg _ d r2 (by simp [hd])]
            rw [splitPair_cons, show splitStep (fun x => !isLowerAlnum x) d
              (splitPair (fun x => !isLowerAlnum x) r2) =
              (d :: (splitPair (fun x => !isLowerAlnum x) r2).1,
                (splitPair (fun x => !isLowerAlnum x) r2).2) by
              simp [splitStep, hd]]
            simp only [joinSep_cons_head]
            simp
          · have hd' : isLowerAlnum d = false := by revert hd; cases isLowerAlnum d <;> simp
            have hhead2 : headNonAlnum (d :: r2) = true := by simp [headNonAlnum, hd']
            rw [hhead2]
            rw [splitRuns_cons_neg _ c (d :: r2) (by simp [hc]),
              splitPair_sep _ d r2 (by simp [hd'])]
            simp only
            rcases hruns : splitRuns (fun x => !isLowerAlnum x) (d :: r2) with _ | ⟨w, ws⟩
            · rw [splitRuns_sep _ d r2 (by simp [hd'])] at hruns
              rw [hruns]
              rfl
            · rw [splitRuns_sep _ d r2 (by simp [hd'])] at hruns
              rw [hruns]
              simp [undIf, joinSep]
      · have hc' : isLowerAlnum c = false := by revert hc; cases isLowerAlnum c <;> simp
        rw [collapse_step_q fuel c r hc', dropTrail_cons_pos _ '_' (by decide) _]
        have hlen2 : (r.dropWhile (fun x => !isLowerAlnum x)).length ≤ fuel := by
          have hsub : (List.dropWhile (fun x => !isLowerAlnum x) r).length ≤ r.length :=
            List.Sublist.length_le (List.dropWhile_sublist (fun x => !isLowerAlnum x))
          simp only [List.length_cons] at hs
          omega
        rw [ih _ hlen2, headNonAlnum_dropWhile r]
        simp only [Bool.false_and, undIf, Bool.false_eq_true, if_false, List.nil_append]
        rw [splitRuns_dropWhile]
        have hrunsc : splitRuns (fun x => !isLowerAlnum x) (c :: r) =
            splitRuns (fun x => !isLowerAlnum x) r :=
          splitRuns_sep _ c r (by simp [hc'])
        rw [hrunsc]
        have hhead : headNonAlnum (c :: r) = true := by simp [headNonAlnum, hc']
        rw [hhead]
        rcases hruns : splitRuns (fun x => !isLowerAlnum x) r with _ | ⟨w, ws⟩
        · simp [joinSep]
        · have hgood := splitRuns_good (fun x => !isLowerAlnum x) r
          rw [hruns] at hgood
          have hne : joinSep ['_'] (w :: ws) ≠ [] :=
            joinSep_ne_nil ['_'] (w :: ws) (by simp) (fun x hx => (hgood x hx).1)
          rw [if_neg hne]
          simp [undIf]


theorem dropWhile_joinSep_good (runs : List (List Char))
    (h : ∀ w ∈ runs, w ≠ [] ∧ ∀ c ∈ w, isLowerAlnum c = true) :
    (joinSep ['_'] runs).dropWhile (fun c => c == '_') = joinSep ['_'] runs := by
  match runs with
  | [] => rfl
  | w :: ws =>
    obtain ⟨hne, hall⟩ := h w (by simp)
    match w, hne with
    | c :: w2, _ =>
      have hc : isLowerAlnum c = true := hall c (by simp)
      have hU : (c == '_') = false := by
        by_cases hq : c = '_'
        · subst hq
          exact absurd hc (by decide)
        · simp [hq]
      rw [joinSep_cons_head]
      exact List.dropWhile_cons_of_neg (by simp [hU])

theorem slug_core (s : List Char) :
    dropTrail (fun c => c == '_')
        ((pass nonAlnumMatch s).dropWhile (fun c => c == '_')) =
      joinSep ['_'] (splitRuns (fun c => !isLowerAlnum c) s) := by
  rw [dropTrail_dropWhile_comm]
  unfold pass
  rw [collapse_dropTrail s.length s le_rfl]
  have hgood := splitRuns_good (fun c => !isLowerAlnum c) s
  have hgood2 : ∀ w ∈ splitRuns (fun c => !isLowerAlnum c) s,
      w ≠ [] ∧ ∀ c ∈ w, isLowerAlnum c = true := by
    intro w hw
    refine ⟨(hgood w hw).1, fun c hc => ?_⟩
    have h2 := (hgood w hw).2 c hc
    revert h2
    cases isLowerAlnum c <;> simp
  cases hcond : (headNonAlnum s && !(splitRuns (fun c => !isLowerAlnum c) s).isEmpty) with
  | false =>
    simp only [undIf, Bool.false_eq_true, if_false, List.nil_append]
    exact dropWhile_joinSep_good _ hgood2
  | true =>
    simp only [undIf, if_true, List.singleton_append]
    rw [List.dropWhile_cons_of_pos (by decide)]
    exact dropWhile_joinSep_good _ hgood2

/-- C8 counterexample: the source strips only straight quotes, so a curly
apostrophe collapses to an underscore, while the spec rule (which strips
curly quotes too) deletes it. -/
theorem slugify_counterexample :
    slugify ['a', '\u2019', 'b'] = "a_b".toList ∧
    slugifySpec ['a', '\u2019', 'b'] = "ab".toList ∧
    slugify ['a', '\u2019', 'b'] ≠ slugifySpec ['a', '\u2019', 'b'] :=
  ⟨by decide, by decide, by decide⟩

/-- C8 (amended): `slugify` coincides with the spec composition with the
quote-stripping step restricted to straight quotes (lowercase, trim, strip
straight quotes, collapse non-`[a-z0-9]` runs to single underscores, trim
boundary underscores, truncate to 80, default `book`). -/
theorem slugify_eq_spec : ∀ s : List Char, slugify s = slugifySpecStraight s := by
  intro s
  simp only [slugify, slugifySpecStraight]
  rw [slug_core]

/-! ### C7: the markup stripper

Substring machinery, per-matcher shape/safety lemmas, the lone-bracket
invariant `NoLoneLt` established by the tag-removal pass and preserved by
every later pass, and the raw-tag theorems for `stripHtml`. -/

theorem isPreB_iff_append : ∀ (pat t : List Char),
    isPreB pat t = true ↔ ∃ u, t = pat ++ u := by
  intro pat
  induction pat with
  | nil =>
    intro t
    simp [isPreB]
  | cons p ps ih =>
    intro t
    cases t with
    | nil =>
      simp [isPreB]
    | cons c cs =>
      simp only [isPreB, Bool.and_eq_true, beq_iff_eq, List.cons_append, ih cs]
      constructor
      · rintro ⟨rfl, u, rfl⟩
        exact ⟨u, rfl⟩
      · rintro ⟨u, h⟩
        injection h with h1 h2
        exact ⟨h1.symm, u, h2⟩

theorem hasSubB_cons (pat : List Char) (c : Char) (r : List Char) :
    hasSubB pat (c :: r) = (isPreB pat (c :: r) || hasSubB pat r) := rfl

theorem hasSubB_of_tail (pat : List Char) (c : Char) (r : List Char)
    (h : hasSubB pat r = true) : hasSubB pat (c :: r) = true := by
  rw [hasSubB_cons, h, Bool.or_true]

theorem hasSubB_of_pre (pat t : List Char) (h : isPreB pat t = true) :
    hasSubB pat t = true := by
  cases t with
  | nil => exact h
  | cons c r => rw [hasSubB_cons, h, Bool.true_or]

theorem hasSubB_drop (pat : List Char) : ∀ (l : List Char) (k : Nat),
    hasSubB pat (l.drop k) = true → hasSubB pat l = true := by
  intro l
  induction l with
  | nil => intro k h; simpa using h
  | cons c r ih =>
    intro k h
    cases k with
    | zero => simpa using h
    | succ k => exact hasSubB_of_tail pat c r (ih k (by simpa using h))

theorem hasSubB_split (p0 : Char) (pat : List Char) : ∀ (a b : List Char),
    hasSubB (p0 :: pat) (a ++ b) = true →
    (∃ c ∈ a, c ∈ p0 :: pat) ∨ hasSubB (p0 :: pat) b = true := by
  intro a
  induction a with
  | nil => intro b h; exact Or.inr (by simpa using h)
  | cons c a2 ih =>
    intro b h
    rw [List.cons_append, hasSubB_cons, Bool.or_eq_true] at h
    rcases h with h | h
    · rcases (isPreB_iff_append (p0 :: pat) _).mp h with ⟨u, hu⟩
      injection hu with h1 _
      exact Or.inl ⟨c, by simp, by simp [h1]⟩
    · rcases ih b h with h2 | h2
      · rcases h2 with ⟨d, hd1, hd2⟩
        exact Or.inl ⟨d, by simp [hd1], hd2⟩
      · exact Or.inr h2

theorem scan_pre_rev (m : List Char → Option (List Char × List Char))
    (pat : List Char) (hm : ∀ t rep rem, m t = some (rep, rem) →
      rep ≠ [] ∧ (∀ c ∈ rep, c ∉ pat) ∧ ∃ k, 1 ≤ k ∧ rem = t.drop k) :
    ∀ (fuel : Nat) (s pr : List Char), (∀ c ∈ pr, c ∈ pat) →
      isPreB pr (scanRepl m fuel s) = true → isPreB pr s = true := by
  intro fuel
  induction fuel with
  | zero => intro s pr _ h; exact h
  | succ fuel ih =>
    intro s pr hpr h
    cases s with
    | nil =>
      cases pr with
      | nil => rfl
      | cons p pr2 => simp [scanRepl, isPreB] at h
    | cons c rest =>
      rcases hms : m (c :: rest) with _ | ⟨rep, rem⟩
      · rw [show scanRepl m (fuel + 1) (c :: rest) = c :: scanRepl m fuel rest by
          simp [scanRepl, hms]] at h
        cases pr with
        | nil => rfl
        | cons p pr2 =>
          simp only [isPreB, Bool.and_eq_true] at h ⊢
          exact ⟨h.1, ih rest pr2 (fun d hd => hpr d (by simp [hd])) h.2⟩
      · obtain ⟨hrep, hrepc, k, hk, hrem⟩ := hm _ _ _ hms
        rw [show scanRepl m (fuel + 1) (c :: rest) = rep ++ scanRepl m fuel rem by
          simp [scanRepl, hms]] at h
        cases pr with
        | nil => rfl
        | cons p pr2 =>
          match rep, hrep with
          | r0 :: rep2, _ =>
            simp only [List.cons_append, isPreB, Bool.and_eq_true, beq_iff_eq] at h
            exact absurd (hpr p (by simp)) (h.1 ▸ hrepc r0 (by simp))

theorem scan_sub_rev (m : List Char → Option (List Char × List Char))
    (p0 : Char) (pat : List Char) (hm : ∀ t rep rem, m t = some (rep, rem) →
      rep ≠ [] ∧ (∀ c ∈ rep, c ∉ p0 :: pat) ∧ ∃ k, 1 ≤ k ∧ rem = t.drop k) :
    ∀ (fuel : Nat) (s : List Char),
      hasSubB (p0 :: pat) (scanRepl m fuel s) = true → hasSubB (p0 :: pat) s = true := by
  intro fuel
  induction fuel with
  | zero => intro s h; exact h
  | succ fuel ih =>
    intro s h
    cases s with
    | nil => simpa [scanRepl] using h
    | cons c rest =>
      rcases hms : m (c :: rest) with _ | ⟨rep, rem⟩
      · rw [show scanRepl m (fuel + 1) (c :: rest) = c :: scanRepl m fuel rest by
          simp [scanRepl, hms]] at h
        rw [hasSubB_cons, Bool.or_eq_true] at h
        rcases h with h | h
        · have hpre := scan_pre_rev m (p0 :: pat) hm (fuel + 1) (c :: rest) (p0 :: pat)
            (fun d hd => hd)
            (by rw [show scanRepl m (fuel + 1) (c :: rest) = c :: scanRepl m fuel rest by
              simp [scanRepl, hms]]
                exact h)
          exact hasSubB_of_pre _ _ hpre
        · exact hasSubB_of_tail _ c rest (ih rest h)
      · obtain ⟨hrep, hrepc, k, hk, hrem⟩ := hm _ _ _ hms
        rw [show scanRepl m (fuel + 1) (c :: rest) = rep ++ scanRepl m fuel rem by
          simp [scanRepl, hms]] at h
        rcases hasSubB_split p0 pat rep _ h with h2 | h2
        · rcases h2 with ⟨d, hd1, hd2⟩
          exact absurd hd2 (hrepc d hd1)
        · have h3 := ih rem h2
          rw [hrem] at h3
          exact hasSubB_drop _ _ _ h3

theorem scan_lit_skip (pat rep : List Char) : ∀ (fuel : Nat) (s : List Char),
    hasSubB pat s = false → scanRepl (litMatch pat rep) fuel s = s := by
  intro fuel
  induction fuel with
  | zero => intro s _; rfl
  | succ fuel ih =>
    intro s h
    cases s with
    | nil => rfl
    | cons c rest =>
      rw [hasSubB_cons] at h
      have h1 : isPreB pat (c :: rest) = false := by
        revert h; cases isPreB pat (c :: rest) <;> simp
      have h2 : hasSubB pat rest = false := by
        revert h; cases hasSubB pat rest <;> simp
      have hm : litMatch pat rep (c :: rest) = none := by
        unfold litMatch
        rw [if_neg (by simp [h1])]
      simp only [scanRepl, hm]
      rw [ih rest h2]


theorem NoLoneLt_tail (c : Char) (r : List Char) (h : NoLoneLt (c :: r)) :
    NoLoneLt r := h.2

theorem NoLoneLt_suffix_drop : ∀ (l : List Char) (k : Nat),
    NoLoneLt l → NoLoneLt (l.drop k) := by
  intro l
  induction l with
  | nil => intro k _; simp [NoLoneLt]
  | cons c r ih =>
    intro k h
    cases k with
    | zero => exact h
    | succ k =>
      rw [List.drop_succ_cons]
      exact ih k h.2

theorem NoLoneLt_append_left : ∀ (a b : List Char),
    '<' ∉ a → NoLoneLt b → NoLoneLt (a ++ b) := by
  intro a
  induction a with
  | nil => intro b _ h; exact h
  | cons c a2 ih =>
    intro b ha hb
    refine ⟨fun hc => absurd (hc ▸ List.mem_cons_self c a2) ha, ?_⟩
    exact ih b (fun hcon => ha (List.mem_cons_of_mem c hcon)) hb

theorem noGt_scan (m : List Char → Option (List Char × List Char)) (hm : MSafe m) :
    ∀ (fuel : Nat) (s : List Char), '>' ∉ s → '>' ∉ scanRepl m fuel s := by
  intro fuel
  induction fuel with
  | zero => intro s h; exact h
  | succ fuel ih =>
    intro s h
    cases s with
    | nil => simp [scanRepl]
    | cons c rest =>
      rcases hms : m (c :: rest) with _ | ⟨rep, rem⟩
      · rw [show scanRepl m (fuel + 1) (c :: rest) = c :: scanRepl m fuel rest by
          simp [scanRepl, hms]]
        intro hcon
        rcases List.mem_cons.mp hcon with rfl | hcon
        · exact h (by simp)
        · exact ih rest (fun hx => h (List.mem_cons_of_mem c hx)) hcon
      · obtain ⟨_, hgt, k, hk, hrem, _, _⟩ := hm _ _ _ hms
        rw [show scanRepl m (fuel + 1) (c :: rest) = rep ++ scanRepl m fuel rem by
          simp [scanRepl, hms]]
        intro hcon
        rcases List.mem_append.mp hcon with hcon | hcon
        · exact hgt hcon
        · exact ih rem (fun hx => h (hrem ▸ hx |> List.mem_of_mem_drop)) hcon

theorem NoLoneLt_scan (m : List Char → Option (List Char × List Char)) (hm : MSafe m) :
    ∀ (fuel : Nat) (s : List Char), NoLoneLt s → NoLoneLt (scanRepl m fuel s) := by
  intro fuel
  induction fuel with
  | zero => intro s h; exact h
  | succ fuel ih =>
    intro s h
    cases s with
    | nil => simpa [scanRepl] using h
    | cons c rest =>
      rcases hms : m (c :: rest) with _ | ⟨rep, rem⟩
      · rw [show scanRepl m (fuel + 1) (c :: rest) = c :: scanRepl m fuel rest by
          simp [scanRepl, hms]]
        refine ⟨?_, ih rest h.2⟩
        intro hc
        rcases h.1 hc with hh | hh
        · rcases rest with _ | ⟨d, r2⟩
          · simp at hh
          · have hd : d = '>' := by simpa using hh
            subst hd
            cases fuel with
            | zero => exact Or.inl rfl
            | succ fuel2 =>
              rcases hms2 : m ('>' :: r2) with _ | ⟨rep2, rem2⟩
              · rw [show scanRepl m (fuel2 + 1) ('>' :: r2) =
                  '>' :: scanRepl m fuel2 r2 by simp [scanRepl, hms2]]
                exact Or.inl rfl
              · obtain ⟨_, _, k2, hk2, _, _, hgtk2⟩ := hm _ _ _ hms2
                exfalso
                refine hgtk2 ?_
                have : ('>' :: r2).take k2 = '>' :: r2.take (k2 - 1) := by
                  cases k2 with
                  | zero => omega
                  | succ k3 => simp
                rw [this]
                simp
        · exact Or.inr (noGt_scan m hm fuel rest hh)
      · obtain ⟨hlt, hgt, k, hk, hrem, _, _⟩ := hm _ _ _ hms
        rw [show scanRepl m (fuel + 1) (c :: rest) = rep ++ scanRepl m fuel rem by
          simp [scanRepl, hms]]
        refine NoLoneLt_append_left rep _ hlt (ih rem ?_)
        rw [hrem]
        exact NoLoneLt_suffix_drop _ k h

theorem take_takeWhile_length (p : Char → Bool) : ∀ l : List Char,
    l.take ((l.takeWhile p).length) = l.takeWhile p := by
  intro l
  induction l with
  | nil => rfl
  | cons c r ih =>
    by_cases hc : p c = true
    · rw [List.takeWhile_cons_of_pos hc]
      simp only [List.length_cons, List.take_succ_cons]
      rw [ih]
    · rw [List.takeWhile_cons_of_neg hc]
      rfl

theorem tagMatch_shape (t rep rem : List Char) (h : tagMatch t = some (rep, rem)) :
    rep = [' '] ∧ ∃ body, t = '<' :: (body ++ '>' :: rem) ∧ body ≠ [] ∧
      ∀ c ∈ body, c ≠ '>' := by
  unfold tagMatch at h
  split at h
  next r =>
    simp only at h
    by_cases hb : r.takeWhile (fun c => c != '>') = []
    · rw [if_pos hb] at h
      simp at h
    · rw [if_neg hb] at h
      split at h
      next rem2 heq =>
        injection h with h2
        injection h2 with hrep hrem
        subst hrep
        subst hrem
        refine ⟨rfl, r.takeWhile (fun c => c != '>'), ?_, hb, ?_⟩
        · have h4 := List.take_append_drop (r.takeWhile (fun c => c != '>')).length r
          rw [take_takeWhile_length] at h4
          rw [heq] at h4
          rw [h4]
        · intro x hx
          have h5 := List.mem_takeWhile_imp hx
          simpa using h5
      next => simp at h
  next => simp at h


theorem scanRepl_nil (m : List Char → Option (List Char × List Char)) :
    ∀ fuel, scanRepl m fuel [] = [] := by
  intro fuel; cases fuel <;> rfl

theorem dropWhile_eq_drop (p : Char → Bool) : ∀ l : List Char,
    l.dropWhile p = l.drop (l.takeWhile p).length := by
  intro l
  induction l with
  | nil => rfl
  | cons c r ih =>
    by_cases hc : p c = true
    · rw [List.dropWhile_cons_of_pos hc, List.takeWhile_cons_of_pos hc]
      simp only [List.length_cons, List.drop_succ_cons]
      exact ih
    · rw [List.dropWhile_cons_of_neg hc, List.takeWhile_cons_of_neg hc]
      rfl

theorem findCC_drop (pat : List Char) : ∀ (fuel : Nat) (t r : List Char),
    findCC pat fuel t = some r → ∃ j, r = t.drop j := by
  intro fuel
  induction fuel with
  | zero => intro t r h; exact absurd h (by simp [findCC])
  | succ fuel ih =>
    intro t r h
    unfold findCC at h
    by_cases hci : ciPre pat t = true
    · rw [if_pos hci] at h
      injection h with h1
      exact ⟨pat.length, h1.symm⟩
    · rw [if_neg hci] at h
      cases t with
      | nil => exact Option.noConfusion h
      | cons c r2 =>
        obtain ⟨j, hj⟩ := ih r2 r h
        exact ⟨j + 1, by rw [List.drop_succ_cons]; exact hj⟩

theorem elemMatch_MShape (openLit closeLit : List Char) (ho : openLit ≠ []) :
    MShape (elemMatch openLit closeLit) := by
  intro t rep rem h
  unfold elemMatch at h
  by_cases hci : ciPre openLit t = true
  · rw [if_pos hci] at h
    rcases hf : findCC closeLit (t.length + 1) (t.drop openLit.length) with _ | r
    · rw [hf] at h; exact Option.noConfusion h
    · rw [hf] at h
      injection h with h1
      injection h1 with hrep hrem
      obtain ⟨j, hj⟩ := findCC_drop closeLit _ _ _ hf
      refine ⟨Or.inl hrep.symm, j + openLit.length, ?_, ?_⟩
      · have h1 : 1 ≤ openLit.length := by
          cases openLit with
          | nil => exact absurd rfl ho
          | cons _ _ => simp
        omega
      · rw [← hrem, hj, List.drop_drop]
        congr 1
        omega
  · rw [if_neg hci] at h; exact Option.noConfusion h

theorem closingMatch_MShape : MShape closingMatch := by
  intro t rep rem h
  unfold closingMatch at h
  rcases hf : closingTagLits.find? (fun lit => ciPre lit t) with _ | lit
  · rw [hf] at h; exact Option.noConfusion h
  · rw [hf] at h
    injection h with h1
    injection h1 with hrep hrem
    have hmem : lit ∈ closingTagLits := List.mem_of_find?_eq_some hf
    have hlen : ∀ l ∈ closingTagLits, 1 ≤ l.length := by decide
    exact ⟨Or.inr (Or.inl hrep.symm), lit.length, hlen lit hmem, hrem.symm⟩

theorem brMatch_MShape : MShape brMatch := by
  intro t rep rem h
  unfold brMatch at h
  by_cases hci : ciPre "<br".toList t = true
  · rw [if_pos hci] at h
    have hw : (t.drop 3).dropWhile isWs =
        (t.drop 3).drop ((t.drop 3).takeWhile isWs).length := dropWhile_eq_drop isWs _
    split at h
    next r heq =>
      injection h with h1
      injection h1 with hrep hrem
      refine ⟨Or.inr (Or.inl hrep.symm),
        2 + ((t.drop 3).takeWhile isWs).length + 3, by omega, ?_⟩
      have h2 : r = ((t.drop 3).dropWhile isWs).drop 2 := by rw [heq]; simp
      rw [← hrem, h2, hw, List.drop_drop, List.drop_drop]
      congr 1
      omega
    next r heq =>
      injection h with h1
      injection h1 with hrep hrem
      refine ⟨Or.inr (Or.inl hrep.symm),
        1 + ((t.drop 3).takeWhile isWs).length + 3, by omega, ?_⟩
      have h2 : r = ((t.drop 3).dropWhile isWs).drop 1 := by rw [heq]; simp
      rw [← hrem, h2, hw, List.drop_drop, List.drop_drop]
      congr 1
      omega
    next => exact Option.noConfusion h
  · rw [if_neg hci] at h; exact Option.noConfusion h

theorem tagMatch_MShape : MShape tagMatch := by
  intro t rep rem h
  obtain ⟨hrep, body, ht, hbne, -⟩ := tagMatch_shape t rep rem h
  refine ⟨Or.inl hrep, body.length + 2, by omega, ?_⟩
  rw [ht]
  rw [show body.length + 2 = body.length + 1 + 1 by omega]
  rw [List.drop_succ_cons]
  rw [← List.drop_drop]
  rw [List.drop_left]
  simp

theorem litMatch_MShape (pat rep : List Char) (hp : pat ≠ [])
    (hr : rep = [' '] ∨ rep = ['\n'] ∨ rep = ['&']) : MShape (litMatch pat rep) := by
  intro t rep2 rem h
  unfold litMatch at h
  by_cases hpre : isPreB pat t = true
  · rw [if_pos hpre] at h
    injection h with h1
    injection h1 with hrep hrem
    subst hrep
    refine ⟨hr, pat.length, ?_, hrem.symm⟩
    cases pat with
    | nil => exact absurd rfl hp
    | cons _ _ => simp
  · rw [if_neg hpre] at h; exact Option.noConfusion h

theorem hasSubB_of_cons_pat (d : Char) (pat : List Char) : ∀ (s : List Char),
    hasSubB (d :: pat) s = true → hasSubB pat s = true := by
  intro s
  induction s with
  | nil => intro h; exact absurd h (by simp [hasSubB, isPreB])
  | cons c r ih =>
    intro h
    rw [hasSubB_cons, Bool.or_eq_true] at h
    rcases h with h | h
    · simp only [isPreB, Bool.and_eq_true] at h
      exact hasSubB_of_tail pat c r (hasSubB_of_pre pat r h.2)
    · exact hasSubB_of_tail pat c r (ih h)

theorem pass_sub_rev (m : List Char → Option (List Char × List Char))
    (p0 : Char) (pat : List Char) (hm : MShape m)
    (h1 : (' ' : Char) ∉ p0 :: pat) (h2 : ('\n' : Char) ∉ p0 :: pat)
    (h3 : ('&' : Char) ∉ p0 :: pat) (s : List Char)
    (h : hasSubB (p0 :: pat) (pass m s) = true) :
    hasSubB (p0 :: pat) s = true := by
  refine scan_sub_rev m p0 pat ?_ s.length s h
  intro t rep rem hme
  obtain ⟨hr, k, hk, hrem⟩ := hm t rep rem hme
  refine ⟨?_, ?_, k, hk, hrem⟩
  · rcases hr with rfl | rfl | rfl <;> simp
  · intro c hc
    rcases hr with rfl | rfl | rfl <;>
      · simp only [List.mem_singleton] at hc
        subst hc
        assumption

theorem take_append_le (a b : List Char) (n : Nat) (h : n ≤ a.length) :
    (a ++ b).take n = a.take n := by
  rw [List.take_append_eq_append_take]
  rw [show n - a.length = 0 by omega]
  simp

theorem litMatch_MSafe (pat rep : List Char) (hp : pat ≠ [])
    (h1 : '<' ∉ pat) (h2 : '>' ∉ pat) (h3 : '<' ∉ rep) (h4 : '>' ∉ rep) :
    MSafe (litMatch pat rep) := by
  intro t rep2 rem h
  unfold litMatch at h
  by_cases hpre : isPreB pat t = true
  · rw [if_pos hpre] at h
    injection h with h0
    injection h0 with hrep hrem
    subst hrep
    obtain ⟨u, hu⟩ := (isPreB_iff_append pat t).mp hpre
    have htake : t.take pat.length = pat := by
      rw [hu, take_append_le pat u pat.length le_rfl, List.take_length]
    refine ⟨h3, h4, pat.length, ?_, hrem.symm, ?_, ?_⟩
    · cases pat with
      | nil => exact absurd rfl hp
      | cons _ _ => simp
    · rw [htake]; exact h1
    · rw [htake]; exact h2
  · rw [if_neg hpre] at h; exact Option.noConfusion h

theorem findIdx_some_lt (p : Char → Bool) : ∀ (l : List Char) (s i : Nat),
    List.findIdx? p l s = some i → i < s + l.length := by
  intro l
  induction l with
  | nil => intro s i h; exact absurd h (by simp [List.findIdx?])
  | cons c r ih =>
    intro s i h
    unfold List.findIdx? at h
    by_cases hc : p c = true
    · rw [if_pos hc] at h
      injection h with h1
      simp only [List.length_cons]
      omega
    · rw [if_neg hc] at h
      have h2 := ih (s + 1) i h
      simp only [List.length_cons]
      omega

theorem mem_take_takeWhile_ws (p : Char → Bool) : ∀ (l : List Char) (n : Nat),
    n ≤ (l.takeWhile p).length → ∀ c ∈ l.take n, p c = true := by
  intro l
  induction l with
  | nil => intro n h c hc; simp at hc
  | cons d r ih =>
    intro n h c hc
    by_cases hd : p d = true
    · rw [List.takeWhile_cons_of_pos hd] at h
      cases n with
      | zero => simp at hc
      | succ n =>
        rw [List.take_succ_cons] at hc
        rcases List.mem_cons.mp hc with rfl | hc
        · exact hd
        · refine ih n ?_ c hc
          simp only [List.length_cons] at h
          omega
    · rw [List.takeWhile_cons_of_neg hd] at h
      simp only [List.length_nil, Nat.le_zero] at h
      subst h
      simp at hc

theorem wsNlMatch_MSafe : MSafe wsNlMatch := by
  intro t rep rem h
  unfold wsNlMatch at h
  simp only at h
  rcases hf : List.findIdx? (fun c => c == '\n') (t.takeWhile isWs).reverse with _ | rk
  · rw [hf] at h; exact Option.noConfusion h
  · rw [hf] at h
    have h1 : (if 1 ≤ (t.takeWhile isWs).length - 1 - rk then
        some (['\n'], t.drop ((t.takeWhile isWs).length - 1 - rk + 1))
        else (none : Option (List Char × List Char))) = some (rep, rem) := h
    by_cases hj : 1 ≤ (t.takeWhile isWs).length - 1 - rk
    · rw [if_pos hj] at h1
      injection h1 with h0
      injection h0 with hrep hrem
      have hrk : rk < (t.takeWhile isWs).length := by
        have h3 := findIdx_some_lt (fun c => c == '\n') (t.takeWhile isWs).reverse 0 rk hf
        simpa using h3
      have hjlen : (t.takeWhile isWs).length - 1 - rk + 1 ≤ (t.takeWhile isWs).length := by
        omega
      have htake : ∀ c ∈ t.take ((t.takeWhile isWs).length - 1 - rk + 1), isWs c = true :=
        mem_take_takeWhile_ws isWs t _ hjlen
      refine ⟨by rw [← hrep]; decide, by rw [← hrep]; decide,
        (t.takeWhile isWs).length - 1 - rk + 1, by omega, hrem.symm, ?_, ?_⟩
      · intro hc; exact absurd (htake '<' hc) (by decide)
      · intro hc; exact absurd (htake '>' hc) (by decide)
    · rw [if_neg hj] at h1; exact Option.noConfusion h1

theorem nlWsMatch_MSafe : MSafe nlWsMatch := by
  intro t rep rem h
  unfold nlWsMatch at h
  split at h
  next r =>
    simp only at h
    by_cases hrun : r.takeWhile isWs = []
    · rw [if_pos hrun] at h; exact Option.noConfusion h
    · rw [if_neg hrun] at h
      injection h with h0
      injection h0 with hrep hrem
      refine ⟨by rw [← hrep]; decide, by rw [← hrep]; decide,
        (r.takeWhile isWs).length + 1, by omega, ?_, ?_, ?_⟩
      · rw [List.drop_succ_cons]
        exact hrem.symm
      · rw [List.take_succ_cons, take_takeWhile_length]
        intro hc
        rcases List.mem_cons.mp hc with hc | hc
        · exact absurd hc (by decide)
        · exact absurd (List.mem_takeWhile_imp hc) (by decide)
      · rw [List.take_succ_cons, take_takeWhile_length]
        intro hc
        rcases List.mem_cons.mp hc with hc | hc
        · exact absurd hc (by decide)
        · exact absurd (List.mem_takeWhile_imp hc) (by decide)
  next => exact Option.noConfusion h

theorem blankMatch_MSafe : MSafe blankMatch := by
  intro t rep rem h
  unfold blankMatch at h
  simp only at h
  by_cases hrun : t.takeWhile (fun c => c == ' ' || c == '\t') = []
  · rw [if_pos hrun] at h; exact Option.noConfusion h
  · rw [if_neg hrun] at h
    injection h with h0
    injection h0 with hrep hrem
    refine ⟨by rw [← hrep]; decide, by rw [← hrep]; decide,
      (t.takeWhile (fun c => c == ' ' || c == '\t')).length, ?_, hrem.symm, ?_, ?_⟩
    · have := List.length_pos.mpr hrun
      omega
    · rw [take_takeWhile_length]
      intro hc
      exact absurd (List.mem_takeWhile_imp hc) (by decide)
    · rw [take_takeWhile_length]
      intro hc
      exact absurd (List.mem_takeWhile_imp hc) (by decide)

theorem nl3Match_MSafe : MSafe nl3Match := by
  intro t rep rem h
  unfold nl3Match at h
  simp only at h
  by_cases hrun : 3 ≤ (t.takeWhile (fun c => c == '\n')).length
  · rw [if_pos hrun] at h
    injection h with h0
    injection h0 with hrep hrem
    refine ⟨by rw [← hrep]; decide, by rw [← hrep]; decide,
      (t.takeWhile (fun c => c == '\n')).length, by omega, hrem.symm, ?_, ?_⟩
    · rw [take_takeWhile_length]
      intro hc
      exact absurd (List.mem_takeWhile_imp hc) (by decide)
    · rw [take_takeWhile_length]
      intro hc
      exact absurd (List.mem_takeWhile_imp hc) (by decide)
  · rw [if_neg hrun] at h; exact Option.noConfusion h

theorem tagMatch_fires (r rem2 : List Char)
    (h1 : r.takeWhile (fun c => c != '>') ≠ [])
    (h2 : r.drop ((r.takeWhile (fun c => c != '>')).length) = '>' :: rem2) :
    tagMatch ('<' :: r) = some ([' '], rem2) := by
  show (if r.takeWhile (fun c => c != '>') = [] then none
    else match r.drop ((r.takeWhile (fun c => c != '>')).length) with
      | '>' :: rem => some ([' '], rem)
      | _ => none) = some ([' '], rem2)
  rw [if_neg h1, h2]
  rfl

theorem dropWhile_gt_spec : ∀ l : List Char,
    (l.dropWhile (fun c => c != '>') = [] ∧ '>' ∉ l) ∨
    ∃ r, l.dropWhile (fun c => c != '>') = '>' :: r := by
  intro l
  induction l with
  | nil => exact Or.inl ⟨rfl, by simp⟩
  | cons c r ih =>
    by_cases hc : c = '>'
    · subst hc
      refine Or.inr ⟨r, ?_⟩
      rw [List.dropWhile_cons_of_neg (by simp)]
    · rw [List.dropWhile_cons_of_pos (by simp [hc])]
      rcases ih with ⟨h1, h2⟩ | ⟨r2, h2⟩
      · refine Or.inl ⟨h1, ?_⟩
        intro hmem
        rcases List.mem_cons.mp hmem with h3 | h3
        · exact hc h3.symm
        · exact h2 h3
      · exact Or.inr ⟨r2, h2⟩

theorem noGt_stripTags : ∀ (fuel : Nat) (s : List Char),
    '>' ∉ s → '>' ∉ scanRepl tagMatch fuel s := by
  intro fuel
  induction fuel with
  | zero => intro s h; exact h
  | succ fuel ih =>
    intro s h
    cases s with
    | nil => simp [scanRepl]
    | cons c rest =>
      rcases hms : tagMatch (c :: rest) with _ | ⟨rep, rem⟩
      · rw [show scanRepl tagMatch (fuel + 1) (c :: rest) = c :: scanRepl tagMatch fuel rest by
          simp [scanRepl, hms]]
        intro hcon
        rcases List.mem_cons.mp hcon with rfl | hcon
        · exact h (by simp)
        · exact ih rest (fun hx => h (List.mem_cons_of_mem c hx)) hcon
      · obtain ⟨hrep, body, ht, hbne, hbody⟩ := tagMatch_shape _ _ _ hms
        exact absurd (by rw [ht]; simp : '>' ∈ c :: rest) h

theorem NoLoneLt_stripTags : ∀ (fuel : Nat) (s : List Char), s.length ≤ fuel →
    NoLoneLt (scanRepl tagMatch fuel s) := by
  intro fuel
  induction fuel with
  | zero =>
    intro s h
    cases s with
    | nil => trivial
    | cons c r => simp at h
  | succ fuel ih =>
    intro s hlen
    cases s with
    | nil => rw [scanRepl_nil]; trivial
    | cons c rest =>
      rcases hms : tagMatch (c :: rest) with _ | ⟨rep, rem⟩
      · rw [show scanRepl tagMatch (fuel + 1) (c :: rest) = c :: scanRepl tagMatch fuel rest by
          simp [scanRepl, hms]]
        have hrl : rest.length ≤ fuel := by
          simp only [List.length_cons] at hlen; omega
        refine ⟨?_, ih rest hrl⟩
        intro hc
        subst hc
        rcases hr : rest with _ | ⟨d, r2⟩
        · rw [scanRepl_nil]
          exact Or.inr (by simp)
        · by_cases hd : d = '>'
          · subst hd
            cases fuel with
            | zero => rw [hr] at hrl; simp at hrl
            | succ fuel2 =>
              rcases hms2 : tagMatch ('>' :: r2) with _ | ⟨rep2, rem2⟩
              · rw [show scanRepl tagMatch (fuel2 + 1) ('>' :: r2) =
                  '>' :: scanRepl tagMatch fuel2 r2 by simp [scanRepl, hms2]]
                exact Or.inl rfl
              · obtain ⟨_, body2, ht2, _, _⟩ := tagMatch_shape _ _ _ hms2
                injection ht2 with h4 _
                exact absurd h4 (by decide)
          · have hbody : (d :: r2).takeWhile (fun c => c != '>') ≠ [] := by
              rw [List.takeWhile_cons_of_pos (by simp [hd])]
              simp
            rcases dropWhile_gt_spec (d :: r2) with ⟨h1, h2⟩ | ⟨r3, h3⟩
            · exact Or.inr (noGt_stripTags fuel (d :: r2) h2)
            · exfalso
              rw [dropWhile_eq_drop] at h3
              have hfire := tagMatch_fires (d :: r2) r3 hbody h3
              rw [hr] at hms
              rw [hms] at hfire
              exact Option.noConfusion hfire
      · obtain ⟨hrep, body, ht, hbne, hbody⟩ := tagMatch_shape _ _ _ hms
        rw [show scanRepl tagMatch (fuel + 1) (c :: rest) = rep ++ scanRepl tagMatch fuel rem by
          simp [scanRepl, hms]]
        have hremlen : rem.length ≤ fuel := by
          have h5 : (c :: rest).length = 1 + (body.length + (1 + rem.length)) := by
            rw [ht]
            simp only [List.length_cons, List.length_append]
            omega
          simp only [List.length_cons] at h5 hlen
          have h6 : 1 ≤ body.length := by
            cases body with
            | nil => exact absurd rfl hbne
            | cons _ _ => simp
          omega
        subst hrep
        refine ⟨?_, ih rem hremlen⟩
        intro hc
        exact absurd hc (by decide)

theorem NoLoneLt_append_inv : ∀ (a b : List Char), NoLoneLt (a ++ b) → NoLoneLt a := by
  intro a
  induction a with
  | nil => intro b _; trivial
  | cons c a2 ih =>
    intro b h
    refine ⟨?_, ih b h.2⟩
    intro hc
    rcases a2 with _ | ⟨d, a3⟩
    · exact Or.inr (by simp)
    · rcases h.1 hc with h2 | h2
      · refine Or.inl ?_
        simp only [List.head?_cons, Option.some.injEq]
        simpa using h2
      · refine Or.inr ?_
        intro hcon
        exact h2 (List.mem_append.mpr (Or.inl hcon))

theorem dropTrail_decomp (p : Char → Bool) (l : List Char) :
    dropTrail p l ++ (l.reverse.takeWhile p).reverse = l := by
  show (l.reverse.dropWhile p).reverse ++ (l.reverse.takeWhile p).reverse = l
  rw [← List.reverse_append, List.takeWhile_append_dropWhile, List.reverse_reverse]

theorem NoLoneLt_trimWs (l : List Char) (h : NoLoneLt l) : NoLoneLt (trimWs l) := by
  show NoLoneLt (dropTrail isWs (l.dropWhile isWs))
  have h1 : NoLoneLt (l.dropWhile isWs) := by
    rw [dropWhile_eq_drop]
    exact NoLoneLt_suffix_drop l _ h
  have h2 := dropTrail_decomp isWs (l.dropWhile isWs)
  rw [← h2] at h1
  exact NoLoneLt_append_inv _ _ h1

theorem NoLoneLt_no_raw : ∀ (u l body v : List Char), NoLoneLt l →
    l = u ++ '<' :: (body ++ '>' :: v) →
    body = [] ∨ '<' ∈ body ∨ '>' ∈ body := by
  intro u
  induction u with
  | nil =>
    intro l body v hl heq
    subst heq
    rcases hl.1 rfl with h1 | h1
    · rcases body with _ | ⟨d, b2⟩
      · exact Or.inl rfl
      · simp only [List.cons_append, List.head?_cons, Option.some.injEq] at h1
        subst h1
        exact Or.inr (Or.inr (List.mem_cons_self '>' b2))
    · exact absurd (by simp : '>' ∈ body ++ '>' :: v) h1
  | cons c u2 ih =>
    intro l body v hl heq
    subst heq
    exact ih _ body v hl.2 rfl

theorem NoLoneLt_pass (m : List Char → Option (List Char × List Char))
    (hm : MSafe m) (s : List Char) (h : NoLoneLt s) : NoLoneLt (pass m s) :=
  NoLoneLt_scan m hm s.length s h

theorem NoLoneLt_pass_tag (s : List Char) : NoLoneLt (pass tagMatch s) :=
  NoLoneLt_stripTags s.length s le_rfl

attribute [irreducible] NoLoneLt

theorem stripHtml_eq (html : List Char) : stripHtml html = trimWs (st15 html) := rfl

theorem NoLoneLt_st7 (html : List Char) : NoLoneLt (st7 html) := by
  have h5 : NoLoneLt (st5 html) := NoLoneLt_pass_tag (st4 html)
  have h6 : NoLoneLt (st6 html) := NoLoneLt_pass _
    (litMatch_MSafe "&nbsp;".toList [' '] (by decide) (by decide) (by decide) (by decide)
      (by decide)) _ h5
  exact NoLoneLt_pass _
    (litMatch_MSafe "&amp;".toList ['&'] (by decide) (by decide) (by decide) (by decide)
      (by decide)) _ h6

theorem st7_sub_pull (html : List Char) (p0 : Char) (pat : List Char)
    (hsp : (' ' : Char) ∉ p0 :: pat) (hnl : ('\n' : Char) ∉ p0 :: pat)
    (hamp : ('&' : Char) ∉ p0 :: pat)
    (hcon : hasSubB (p0 :: pat) (st7 html) = true) :
    hasSubB (p0 :: pat) html = true := by
  have s6 : hasSubB (p0 :: pat) (st6 html) = true := pass_sub_rev _ p0 pat
    (litMatch_MShape "&amp;".toList ['&'] (by decide) (Or.inr (Or.inr rfl)))
    hsp hnl hamp _ hcon
  have s5 : hasSubB (p0 :: pat) (st5 html) = true := pass_sub_rev _ p0 pat
    (litMatch_MShape "&nbsp;".toList [' '] (by decide) (Or.inl rfl))
    hsp hnl hamp _ s6
  have s4 : hasSubB (p0 :: pat) (st4 html) = true := pass_sub_rev _ p0 pat
    tagMatch_MShape hsp hnl hamp _ s5
  have s3 : hasSubB (p0 :: pat) (st3 html) = true := pass_sub_rev _ p0 pat
    brMatch_MShape hsp hnl hamp _ s4
  have s2 : hasSubB (p0 :: pat) (st2 html) = true := pass_sub_rev _ p0 pat
    closingMatch_MShape hsp hnl hamp _ s3
  have s1 : hasSubB (p0 :: pat) (st1 html) = true := pass_sub_rev _ p0 pat
    (elemMatch_MShape "<style".toList "</style>".toList (by decide)) hsp hnl hamp _ s2
  exact pass_sub_rev _ p0 pat
    (elemMatch_MShape "<script".toList "</script>".toList (by decide)) hsp hnl hamp _ s1

theorem st7_no_lt (html : List Char)
    (hlt : hasSubB ['l', 't', ';'] html = false) :
    hasSubB ['l', 't', ';'] (st7 html) = false := by
  by_contra hcon
  rw [Bool.not_eq_false] at hcon
  have hfin := st7_sub_pull html 'l' ['t', ';'] (by decide) (by decide) (by decide) hcon
  rw [hlt] at hfin
  exact Bool.noConfusion hfin

theorem st7_no_gt (html : List Char)
    (hgt : hasSubB ['g', 't', ';'] html = false) :
    hasSubB ['g', 't', ';'] (st7 html) = false := by
  by_contra hcon
  rw [Bool.not_eq_false] at hcon
  have hfin := st7_sub_pull html 'g' ['t', ';'] (by decide) (by decide) (by decide) hcon
  rw [hgt] at hfin
  exact Bool.noConfusion hfin

theorem st8_eq (html : List Char)
    (hlt7 : hasSubB ['l', 't', ';'] (st7 html) = false) :
    st8 html = st7 html := by
  have hsub8 : hasSubB "&lt;".toList (st7 html) = false := by
    by_contra hcon
    rw [Bool.not_eq_false] at hcon
    have h2 := hasSubB_of_cons_pat '&' ['l', 't', ';'] (st7 html) hcon
    rw [hlt7] at h2
    exact Bool.noConfusion h2
  exact scan_lit_skip "&lt;".toList ['<'] (st7 html).length (st7 html) hsub8

theorem st9_eq (html : List Char)
    (hlt7 : hasSubB ['l', 't', ';'] (st7 html) = false)
    (hgt7 : hasSubB ['g', 't', ';'] (st7 html) = false) :
    st9 html = st7 html := by
  have h8 := st8_eq html hlt7
  have hsub9 : hasSubB "&gt;".toList (st8 html) = false := by
    rw [h8]
    by_contra hcon
    rw [Bool.not_eq_false] at hcon
    have h2 := hasSubB_of_cons_pat '&' ['g', 't', ';'] (st7 html) hcon
    rw [hgt7] at h2
    exact Bool.noConfusion h2
  have h9 : st9 html = st8 html :=
    scan_lit_skip "&gt;".toList ['>'] (st8 html).length (st8 html) hsub9
  rw [h9, h8]

theorem NoLoneLt_st15 (html : List Char) (h9n : NoLoneLt (st9 html)) :
    NoLoneLt (st15 html) := by
  have h10 : NoLoneLt (st10 html) := NoLoneLt_pass _
    (litMatch_MSafe "&quot;".toList ['"'] (by decide) (by decide) (by decide) (by decide)
      (by decide)) _ h9n
  have h11 : NoLoneLt (st11 html) := NoLoneLt_pass _
    (litMatch_MSafe "&#39;".toList ['\''] (by decide) (by decide) (by decide) (by decide)
      (by decide)) _ h10
  have h12 : NoLoneLt (st12 html) := NoLoneLt_pass _ wsNlMatch_MSafe _ h11
  have h13 : NoLoneLt (st13 html) := NoLoneLt_pass _ nlWsMatch_MSafe _ h12
  have h14 : NoLoneLt (st14 html) := NoLoneLt_pass _ blankMatch_MSafe _ h13
  exact NoLoneLt_pass _ nl3Match_MSafe _ h14

theorem NoLoneLt_stripHtml (html : List Char)
    (hlt : hasSubB ['l', 't', ';'] html = false)
    (hgt : hasSubB ['g', 't', ';'] html = false) :
    NoLoneLt (stripHtml html) := by
  have h9n : NoLoneLt (st9 html) := by
    rw [st9_eq html (st7_no_lt html hlt) (st7_no_gt html hgt)]
    exact NoLoneLt_st7 html
  rw [stripHtml_eq]
  exact NoLoneLt_trimWs _ (NoLoneLt_st15 html h9n)

/-- C7 (amended): for every input whose text nowhere contains the letter
sequences that the later entity decodes could turn into angle brackets
(no occurrence of the three characters of the less-than or greater-than
entity bodies), the markup stripper's output contains no raw tag: whenever
the output splits as `u ++ '<' :: (body ++ '>' :: v)`, the would-be tag body
is empty or itself contains an angle bracket, so no substring of the form
`'<'`, a non-empty bracket-free tag body, then `'>'` survives.  The original
claim (never any raw tag syntax, for every input) is refuted by the
counterexample theorem: entity decoding runs after tag stripping and
reintroduces raw tags. -/
theorem stripHtml_no_raw_tags (html u body v : List Char)
    (hlt : hasSubB ['l', 't', ';'] html = false)
    (hgt : hasSubB ['g', 't', ';'] html = false)
    (h : stripHtml html = u ++ '<' :: (body ++ '>' :: v)) :
    body = [] ∨ '<' ∈ body ∨ '>' ∈ body :=
  NoLoneLt_no_raw u (stripHtml html) body v (NoLoneLt_stripHtml html hlt hgt) h

set_option maxHeartbeats 4000000 in
/-- Witness for the amended C7 theorem at the concrete input `a<>b`, whose
output `a<>b` splits around an empty tag body. -/
theorem stripHtml_no_raw_tags_witness :
    hasSubB ['l', 't', ';'] "a<>b".toList = false ∧
    hasSubB ['g', 't', ';'] "a<>b".toList = false ∧
    stripHtml "a<>b".toList = ['a'] ++ '<' :: (([] : List Char) ++ '>' :: ['b']) ∧
    (([] : List Char) = [] ∨ '<' ∈ ([] : List Char) ∨ '>' ∈ ([] : List Char)) :=
  ⟨by decide, by decide, by decide,
    stripHtml_no_raw_tags "a<>b".toList ['a'] [] ['b'] (by decide) (by decide) (by decide)⟩

set_option maxHeartbeats 4000000 in
/-- Counterexample to C7 as stated: on the input `&lt;b&gt;` the markup
stripper outputs the raw tag `<b>` — the literal `<`, the non-empty
bracket-free body `b`, then `>` — because the `&lt;`/`&gt;` entity decodes
run after tag stripping. -/
theorem stripHtml_counterexample :
    stripHtml "&lt;b&gt;".toList = [] ++ '<' :: (['b'] ++ '>' :: []) ∧
    ¬(['b'] = ([] : List Char) ∨ '<' ∈ ['b'] ∨ '>' ∈ ['b']) := by
  constructor
  · decide
  · decide
end EpubAI
